import Mathlib

/-!
Verification of the visa-slot watcher (`src/index.js`, plus the earlier
script variant of the same program).  The HTML-scraping functions of the
source are regex-driven; they are embedded here as executable scanners over
`List Char`.  The regexes of the source are written down as `Pat` lists and
run by a small backtracking matcher (`matchPats`) whose branch ordering
mirrors the leftmost / greedy / lazy semantics of the JavaScript regex
engine for exactly the constructs those regexes use.  The matcher carries a
fuel argument so that it is structurally recursive (and hence reducible by
the kernel); the fuel supplied by `runMatch` strictly exceeds the maximal
possible depth of the search (every step consumes a character or removes a
pattern), so it never runs out.
-/

namespace VisaWatcher

/-- The apostrophe character (written via its code point). -/
def apos : Char := Char.ofNat 39

/-- JS regex `["']` character class. -/
def isQuoteChar (c : Char) : Bool := c = '"' || c = apos

/-- JS regex `\d` (ASCII digits only). -/
def isJsDigit (c : Char) : Bool := c.isDigit

/-- JS regex `\w` (ASCII letters, digits, underscore). -/
def isJsWordChar (c : Char) : Bool := c.isAlphanum || c = '_'

/-- JS regex `\s` / `String.prototype.trim` whitespace (modelled by
`Char.isWhitespace`; the inputs of interest only use ASCII whitespace). -/
def isJsSpace (c : Char) : Bool := c.isWhitespace

/-- Case-insensitive prefix test: the pattern is stored lowercased, the
input is folded with `Char.toLower` (this is how the `i` flag acts on the
ASCII-only literals of the source regexes). -/
def startsWithCI : List Char → List Char → Bool
  | [], _ => true
  | _ :: _, [] => false
  | p :: ps, c :: cs => p = c.toLower && startsWithCI ps cs

/-- The pattern constructs used by the regexes of `src/index.js`. -/
inductive Pat where
  /-- a case-insensitive literal (stored lowercased) -/
  | lit (s : List Char)
  /-- `["']` -/
  | quote
  /-- `[^>]*` (greedy) -/
  | gapNoGt
  /-- `(?:[^"']*)` (greedy, not captured) -/
  | gapNoQuote
  /-- `\s*` (greedy) -/
  | wsStar
  /-- `[\s\S]*?` (lazy, not captured) -/
  | lazyAny
  /-- `([\s\S]*?)` (lazy capture) -/
  | capLazyAny
  /-- `([^"']*)` (greedy capture) -/
  | capNoQuote
  /-- `(\d{4})` -/
  | capDigits4
  /-- `(\d{1,2})` (greedy) -/
  | capDigits12
  /-- `(\d+)` (greedy; in every source regex it is followed by a quote,
  so the maximal digit run is the unique possible match) -/
  | capDigitsPlus
  /-- `(\d{4}\/\d{2}\/\d{2})` -/
  | capDate
  /-- `\b` placed right after a word character: succeeds iff the next
  input character is absent or not a word character -/
  | nonWordNext
  /-- `(?:...)?` (greedy optional group) -/
  | opt (ps : List Pat)
  /-- a backreference `\n` to capture `i` (0-based) -/
  | backref (i : Nat)
deriving Repr

mutual

/-- Weight of one pattern (used for the fuel bound). -/
def patWeight : Pat → Nat
  | .opt ps => 1 + patsWeight ps
  | _ => 1

/-- Total weight of a pattern list. -/
def patsWeight : List Pat → Nat
  | [] => 0
  | p :: ps => patWeight p + patsWeight ps

end

/-- Prepend a character to the capture at index `i`. -/
def consCapAt (i : Nat) (c : Char) (caps : List (List Char)) : List (List Char) :=
  caps.set i (c :: caps.getD i [])

/-- The backtracking matcher.  `matchPats fuel ps cs acc` attempts to match
the pattern list `ps` at the start of `cs`, with `acc` the captures already
collected; it returns the full capture list and the remaining input.
Alternatives are ordered exactly as a backtracking regex engine orders
them: greedy constructs try the longer consumption first, lazy constructs
try the continuation first. -/
def matchPats (fuel : Nat) (ps : List Pat) (cs : List Char)
    (acc : List (List Char)) : Option (List (List Char) × List Char) :=
  match fuel with
  | 0 => none
  | fuel + 1 =>
    match ps with
    | [] => some (acc, cs)
    | .lit s :: ps =>
        if startsWithCI s cs then matchPats fuel ps (cs.drop s.length) acc else none
    | .quote :: ps =>
        match cs with
        | c :: t => if isQuoteChar c then matchPats fuel ps t acc else none
        | [] => none
    | .gapNoGt :: ps =>
        (match cs with
         | c :: t => if c ≠ '>' then matchPats fuel (.gapNoGt :: ps) t acc else none
         | [] => none).orElse
          (fun _ => matchPats fuel ps cs acc)
    | .gapNoQuote :: ps =>
        (match cs with
         | c :: t => if !isQuoteChar c then matchPats fuel (.gapNoQuote :: ps) t acc else none
         | [] => none).orElse
          (fun _ => matchPats fuel ps cs acc)
    | .wsStar :: ps =>
        (match cs with
         | c :: t => if isJsSpace c then matchPats fuel (.wsStar :: ps) t acc else none
         | [] => none).orElse
          (fun _ => matchPats fuel ps cs acc)
    | .lazyAny :: ps =>
        (matchPats fuel ps cs acc).orElse
          (fun _ =>
            match cs with
            | _ :: t => matchPats fuel (.lazyAny :: ps) t acc
            | [] => none)
    | .capLazyAny :: ps =>
        (matchPats fuel ps cs (acc ++ [[]])).orElse
          (fun _ =>
            match cs with
            | c :: t =>
                (matchPats fuel (.capLazyAny :: ps) t acc).map
                  (fun (r : List (List Char) × List Char) =>
                    (consCapAt acc.length c r.1, r.2))
            | [] => none)
    | .capNoQuote :: ps =>
        (match cs with
         | c :: t =>
             if !isQuoteChar c then
               (matchPats fuel (.capNoQuote :: ps) t acc).map
                 (fun (r : List (List Char) × List Char) =>
                   (consCapAt acc.length c r.1, r.2))
             else none
         | [] => none).orElse
          (fun _ => matchPats fuel ps cs (acc ++ [[]]))
    | .capDigits4 :: ps =>
        match cs with
        | a :: b :: c :: d :: t =>
            if isJsDigit a && isJsDigit b && isJsDigit c && isJsDigit d then
              matchPats fuel ps t (acc ++ [[a, b, c, d]])
            else none
        | _ => none
    | .capDigits12 :: ps =>
        match cs with
        | a :: t =>
            if isJsDigit a then
              (match t with
               | b :: t2 =>
                   if isJsDigit b then matchPats fuel ps t2 (acc ++ [[a, b]]) else none
               | [] => none).orElse
                (fun _ => matchPats fuel ps t (acc ++ [[a]]))
            else none
        | [] => none
    | .capDigitsPlus :: ps =>
        let run := cs.takeWhile isJsDigit
        if run.isEmpty then none
        else matchPats fuel ps (cs.drop run.length) (acc ++ [run])
    | .capDate :: ps =>
        match cs with
        | y1 :: y2 :: y3 :: y4 :: s1 :: m1 :: m2 :: s2 :: d1 :: d2 :: t =>
            if isJsDigit y1 && isJsDigit y2 && isJsDigit y3 && isJsDigit y4 &&
               s1 = '/' && isJsDigit m1 && isJsDigit m2 && s2 = '/' &&
               isJsDigit d1 && isJsDigit d2 then
              matchPats fuel ps t (acc ++ [[y1, y2, y3, y4, s1, m1, m2, s2, d1, d2]])
            else none
        | _ => none
    | .nonWordNext :: ps =>
        if (match cs with
            | c :: _ => !isJsWordChar c
            | [] => true) then
          matchPats fuel ps cs acc
        else none
    | .opt sub :: ps =>
        (matchPats fuel (sub ++ ps) cs acc).orElse
          (fun _ => matchPats fuel ps cs acc)
    | .backref i :: ps =>
        let s := (acc.getD i []).map Char.toLower
        if startsWithCI s cs then matchPats fuel ps (cs.drop s.length) acc else none

/-- Run the matcher at the start of `cs` with ample fuel (every recursive
step of `matchPats` strictly decreases `cs.length + patsWeight ps`, so
this fuel can never be exhausted). -/
def runMatch (ps : List Pat) (cs : List Char) : Option (List (List Char) × List Char) :=
  matchPats (cs.length + patsWeight ps + 1) ps cs []

/-- `String.prototype.match` (no `g` flag): try the pattern at every start
position, leftmost first, and return the captures of the first success. -/
def scanFirst (ps : List Pat) : List Char → Option (List (List Char))
  | [] => (runMatch ps []).map Prod.fst
  | c :: t =>
    match runMatch ps (c :: t) with
    | some r => some r.1
    | none => scanFirst ps t

/-- Fueled worker for `scanAll`. -/
def scanAllF (fuel : Nat) (ps : List Pat) (cs : List Char) : List (List (List Char)) :=
  match fuel with
  | 0 => []
  | fuel + 1 =>
    match cs with
    | [] => []
    | c :: t =>
      match runMatch ps (c :: t) with
      | some (caps, rem) =>
          if rem.length ≤ t.length then caps :: scanAllF fuel ps rem
          else caps :: scanAllF fuel ps t
      | none => scanAllF fuel ps t

/-- `String.prototype.matchAll` / a `g`-flag `exec` loop: repeatedly match,
continuing after each match (advancing one character on a zero-width
match, which none of the source patterns can produce). -/
def scanAll (ps : List Pat) (cs : List Char) : List (List (List Char)) :=
  scanAllF (cs.length + 1) ps cs

/-! ### Plain string helpers of the source -/

/-- `String.prototype.trim`. -/
def jsTrim (cs : List Char) : List Char :=
  ((cs.dropWhile isJsSpace).reverse.dropWhile isJsSpace).reverse

/-- Case-sensitive prefix test. -/
def startsWithCS : List Char → List Char → Bool
  | [], _ => true
  | _ :: _, [] => false
  | p :: ps, c :: cs => p = c && startsWithCS ps cs

/-- Fueled worker for `replaceLit`. -/
def replaceLitF (fuel : Nat) (pat repl cs : List Char) : List Char :=
  match fuel with
  | 0 => cs
  | fuel + 1 =>
    match cs with
    | [] => []
    | c :: t =>
      if startsWithCS pat cs then repl ++ replaceLitF fuel pat repl (cs.drop pat.length)
      else c :: replaceLitF fuel pat repl t

/-- `String.prototype.replace` with a `g`-flag literal pattern: leftmost,
non-overlapping, the replacement is not rescanned. -/
def replaceLit (pat repl cs : List Char) : List Char :=
  replaceLitF (cs.length + 1) pat repl cs

/-- `decodeHtml` (src/index.js lines 241-250): six sequential global
replaces of a fixed entity set, then `trim`. -/
def decodeHtmlL (text : List Char) : List Char :=
  jsTrim
    (replaceLit "&nbsp;".data [' ']
      (replaceLit "&#39;".data [apos]
        (replaceLit "&quot;".data ['"']
          (replaceLit "&gt;".data ['>']
            (replaceLit "&lt;".data ['<']
              (replaceLit "&amp;".data ['&'] text))))))

/-- Fueled worker for `stripTags`. -/
def stripTagsF (fuel : Nat) (cs : List Char) : List Char :=
  match fuel with
  | 0 => cs
  | fuel + 1 =>
    match cs with
    | [] => []
    | c :: t =>
      if c = '<' then
        let gap := t.takeWhile (fun x => x ≠ '>')
        match t.drop gap.length with
        | _ :: r => stripTagsF fuel r
        | [] => c :: stripTagsF fuel t
      else c :: stripTagsF fuel t

/-- `stripTags` (src/index.js line 233): `.replace(/<[^>]*>/g, '')` — a
`<` through the first following `>` is removed; a `<` with no following
`>` stays. -/
def stripTags (cs : List Char) : List Char :=
  stripTagsF (cs.length + 1) cs

/-- `.replace(/\s+/g, ' ')`: collapse every whitespace run to one space
(state-machine form; the flag records whether we are inside a run). -/
def collapseWsGo : Bool → List Char → List Char
  | _, [] => []
  | inWs, c :: t =>
    if isJsSpace c then
      if inWs then collapseWsGo true t else ' ' :: collapseWsGo true t
    else c :: collapseWsGo false t

/-- `.replace(/\s+/g, ' ')`. -/
def collapseWs (cs : List Char) : List Char := collapseWsGo false cs

/-- `Number(s)` on a digit string (the only shape the captures can have). -/
def digitsToNat (l : List Char) : Nat :=
  l.foldl (fun n c => n * 10 + (c.toNat - '0'.toNat)) 0

/-- `Number(s)` followed by the `Number.isInteger` check of the source: on
an all-digit string this is the digit value (`Number('') = 0` included);
anything else is modelled as a failed check. -/
def digitsToNat? (l : List Char) : Option Nat :=
  if l.all isJsDigit then some (digitsToNat l) else none

/-- `String(n)` for a natural number. -/
def natToChars (n : Nat) : List Char := (Nat.repr n).data

/-- `String.prototype.padStart(w, '0')`. -/
def padZero (w : Nat) (l : List Char) : List Char :=
  List.replicate (w - l.length) '0' ++ l

/-! ### The regexes of `src/index.js` as `Pat` lists -/

/-- Lowercased character data of a string literal (the stored form of a
case-insensitive regex literal). -/
def lc (s : String) : List Char := s.data.map Char.toLower

/-- `extractInputValue` pattern (src/index.js lines 85-88):
`<input[^>]*name=["']NAME["'][^>]*value=["']([^"']*)["'][^>]*>` with the
`i` flag; `NAME` is inserted through `escapeRegExp`, i.e. literally. -/
def inputValuePats (name : List Char) : List Pat :=
  [.lit (lc "<input"), .gapNoGt, .lit (lc "name="), .quote,
   .lit (name.map Char.toLower), .quote, .gapNoGt, .lit (lc "value="),
   .quote, .capNoQuote, .quote, .gapNoGt, .lit (lc ">")]

/-- `parseSelectedValue` fallback pattern (src/index.js lines 99-102):
`<input[^>]*name=["']NAME["'][^>]*value=["']([^"']*)["'][^>]*checked=["']checked["'][^>]*>`. -/
def checkedPats (name : List Char) : List Pat :=
  [.lit (lc "<input"), .gapNoGt, .lit (lc "name="), .quote,
   .lit (name.map Char.toLower), .quote, .gapNoGt, .lit (lc "value="),
   .quote, .capNoQuote, .quote, .gapNoGt, .lit (lc "checked="), .quote,
   .lit (lc "checked"), .quote, .gapNoGt, .lit (lc ">")]

/-- `parsePlans` pattern (src/index.js lines 109-110):
`<input[^>]*name=["']plan["'][^>]*id=["']plan-(\d+)["'][^>]*>\s*<label[^>]*for=["']plan-\1["'][^>]*>([\s\S]*?)<\/label>`. -/
def planPats : List Pat :=
  [.lit (lc "<input"), .gapNoGt, .lit (lc "name="), .quote, .lit (lc "plan"),
   .quote, .gapNoGt, .lit (lc "id="), .quote, .lit (lc "plan-"),
   .capDigitsPlus, .quote, .gapNoGt, .lit (lc ">"), .wsStar,
   .lit (lc "<label"), .gapNoGt, .lit (lc "for="), .quote, .lit (lc "plan-"),
   .backref 0, .quote, .gapNoGt, .lit (lc ">"), .capLazyAny,
   .lit (lc "</label>")]

/-- `parseYearMonth` pattern (src/index.js lines 139-141):
`<div class=["']date["']>[\s\S]*?(\d{4})年[\s\S]*?<b>(\d{1,2})<\/b>月[\s\S]*?<\/div>`. -/
def yearMonthPats : List Pat :=
  [.lit (lc "<div class="), .quote, .lit (lc "date"), .quote, .lit (lc ">"),
   .lazyAny, .capDigits4, .lit (lc "年"), .lazyAny, .lit (lc "<b>"),
   .capDigits12, .lit (lc "</b>"), .lit (lc "月"), .lazyAny,
   .lit (lc "</div>")]

/-- Table-cell pattern (src/index.js line 164): `<td\b[^>]*>([\s\S]*?)<\/td>`. -/
def tdPats : List Pat :=
  [.lit (lc "<td"), .nonWordNext, .gapNoGt, .lit (lc ">"), .capLazyAny,
   .lit (lc "</td>")]

/-- `data-date` pattern (src/index.js line 173):
`data-date=["'](\d{4}\/\d{2}\/\d{2})["']`. -/
def dataDatePats : List Pat :=
  [.lit (lc "data-date="), .quote, .capDate, .quote]

/-- Day-number pattern (src/index.js lines 195-197):
`<div class=["']sc_cal_date(?:[^"']*)["']>\s*(?:<a[^>]*>)?(\d{1,2})(?:<\/a>)?\s*<\/div>`. -/
def dayPats : List Pat :=
  [.lit (lc "<div class="), .quote, .lit (lc "sc_cal_date"), .gapNoQuote,
   .quote, .lit (lc ">"), .wsStar, .opt [.lit (lc "<a"), .gapNoGt, .lit (lc ">")],
   .capDigits12, .opt [.lit (lc "</a>")], .wsStar, .lit (lc "</div>")]

/-! ### The markup extractor functions -/

/-- `extractInputValue` (src/index.js lines 84-91), on character lists. -/
def extractInputValueL (html name : List Char) : List Char :=
  match scanFirst (inputValuePats name) html with
  | some caps => decodeHtmlL (caps.getD 0 [])
  | none => []

/-- `extractInputValue` at string type. -/
def extractInputValue (html name : String) : String :=
  String.mk (extractInputValueL html.data name.data)

/-- `parseSelectedValue` (src/index.js lines 93-105): the plain hidden
value if truthy (nonempty), else the first `checked` radio value. -/
def parseSelectedValueL (html name : List Char) : List Char :=
  let hidden := extractInputValueL html name
  if hidden ≠ [] then hidden
  else
    match scanFirst (checkedPats name) html with
    | some caps => decodeHtmlL (caps.getD 0 [])
    | none => []

/-- `parseSelectedValue` at string type. -/
def parseSelectedValue (html name : String) : String :=
  String.mk (parseSelectedValueL html.data name.data)

/-- A parsed plan (src/index.js line 117). -/
structure Plan where
  id : Nat
  label : List Char
deriving DecidableEq, Repr

/-- The dedup key of a plan (src/index.js line 128). -/
def planKey (p : Plan) : List Char := natToChars p.id ++ '|' :: p.label

/-- `dedupePlans` worker: skip a plan whose key is already seen. -/
def dedupePlansGo (seen : List (List Char)) : List Plan → List Plan
  | [] => []
  | p :: t =>
    if planKey p ∈ seen then dedupePlansGo seen t
    else p :: dedupePlansGo (planKey p :: seen) t

/-- `dedupePlans` (src/index.js lines 124-136). -/
def dedupePlans (plans : List Plan) : List Plan := dedupePlansGo [] plans

/-- The `while exec` loop of `parsePlans` (src/index.js lines 112-119):
every match yields a plan when its cleaned label is nonempty. -/
def rawPlans (html : List Char) : List Plan :=
  (scanAll planPats html).filterMap (fun caps =>
    let id := digitsToNat (caps.getD 0 [])
    let labelRaw := jsTrim (collapseWs (stripTags (caps.getD 1 [])))
    if labelRaw ≠ [] then some ⟨id, decodeHtmlL labelRaw⟩ else none)

/-- `parsePlans` (src/index.js lines 107-122). -/
def parsePlansL (html : List Char) : List Plan := dedupePlans (rawPlans html)

/-- `parsePlans` at string type. -/
def parsePlans (html : String) : List Plan := parsePlansL html.data

/-- The year/month of the JS fallback `Date` (`getFullYear()` and
`getMonth() + 1` are the only fields the parser reads). -/
structure FallbackDate where
  year : Nat
  month : Nat
deriving DecidableEq, Repr

/-- `parseYearMonth` (src/index.js lines 138-160). -/
def parseYearMonthL (html : List Char) (fb : FallbackDate) : Nat × Nat :=
  match scanFirst yearMonthPats html with
  | none => (fb.year, fb.month)
  | some caps =>
    match digitsToNat? (caps.getD 0 []), digitsToNat? (caps.getD 1 []) with
    | some y, some m => (y, m)
    | _, _ => (fb.year, fb.month)

/-- `parseYearMonth` at string type. -/
def parseYearMonth (html : String) (fb : FallbackDate) : Nat × Nat :=
  parseYearMonthL html.data fb

/-- `toIsoDate` (src/index.js lines 219-221). -/
def toIsoDateL (year month day : Nat) : List Char :=
  padZero 4 (natToChars year) ++ '-' ::
    (padZero 2 (natToChars month) ++ '-' :: padZero 2 (natToChars day))

/-- `rsvDateToIso` (src/index.js lines 213-217): anchored
`^(\d{4})\/(\d{2})\/(\d{2})$`, `''` on mismatch. -/
def rsvDateToIsoL (l : List Char) : List Char :=
  match l with
  | [y1, y2, y3, y4, s1, m1, m2, s2, d1, d2] =>
    if isJsDigit y1 && isJsDigit y2 && isJsDigit y3 && isJsDigit y4 &&
       s1 = '/' && isJsDigit m1 && isJsDigit m2 && s2 = '/' &&
       isJsDigit d1 && isJsDigit d2 then
      [y1, y2, y3, y4, '-', m1, m2, '-', d1, d2]
    else []
  | _ => []

/-- The `data-date` captures of one cell (src/index.js line 173). -/
def dataDatesL (cell : List Char) : List (List Char) :=
  (scanAll dataDatePats cell).map (fun caps => caps.getD 0 [])

/-- `/icon_circle\.svg/i.test(cell)`. -/
def hasCircleIcon (cell : List Char) : Bool :=
  (scanFirst [.lit (lc "icon_circle.svg")] cell).isSome

/-- `/icon_disabled\.svg/i.test(cell)`. -/
def hasDisabledIcon (cell : List Char) : Bool :=
  (scanFirst [.lit (lc "icon_disabled.svg")] cell).isSome

/-- `/Available/i.test(cell) || /受付中/.test(cell)`. -/
def hasAvailableText (cell : List Char) : Bool :=
  (scanFirst [.lit (lc "Available")] cell).isSome ||
    (scanFirst [.lit (lc "受付中")] cell).isSome

/-- The first day-number capture of a cell (src/index.js lines 195-197). -/
def dayCaptureL (cell : List Char) : Option (List Char) :=
  (scanFirst dayPats cell).map (fun caps => caps.getD 0 [])

/-- The loop body of `parseAvailableDates` for one `<td>` cell
(src/index.js lines 169-208): the dates this cell pushes. -/
def processCell (year month : Nat) (cell : List Char) : List (List Char) :=
  if hasCircleIcon cell && !(dataDatesL cell).isEmpty then
    (dataDatesL cell).filterMap (fun d =>
      let iso := rsvDateToIsoL d
      if iso.isEmpty then none else some iso)
  else if hasDisabledIcon cell then []
  else if !hasAvailableText cell then []
  else
    match dayCaptureL cell with
    | none => []
    | some cap =>
      match digitsToNat? cap with
      | none => []
      | some day =>
        if day < 1 || 31 < day then [] else [toIsoDateL year month day]

/-- The `<td>` cell contents of the page (src/index.js lines 164-168). -/
def extractTdsL (html : List Char) : List (List Char) :=
  (scanAll tdPats html).map (fun caps => caps.getD 0 [])

/-- First-occurrence dedup, i.e. `[...new Set(dates)]`. -/
def jsDedupGo (seen : List (List Char)) : List (List Char) → List (List Char)
  | [] => []
  | x :: t => if x ∈ seen then jsDedupGo seen t else x :: jsDedupGo (x :: seen) t

/-- `[...new Set(dates)]`. -/
def jsDedup (l : List (List Char)) : List (List Char) := jsDedupGo [] l

/-- The JS default sort order: lexicographic comparison of the two strings
(code-unit order; identical to code-point order on the strings involved). -/
def strLeB : List Char → List Char → Bool
  | [], _ => true
  | _ :: _, [] => false
  | a :: as, b :: bs => if a = b then strLeB as bs else decide (a < b)

/-- `strLeB` as a relation. -/
def strLe (a b : List Char) : Prop := strLeB a b = true

instance : DecidableRel strLe := fun a b =>
  inferInstanceAs (Decidable (strLeB a b = true))

/-- `[...new Set(dates)].sort()` (src/index.js line 210). -/
def sortDedupDates (dates : List (List Char)) : List (List Char) :=
  List.insertionSort strLe (jsDedup dates)

/-- `parseAvailableDates` (src/index.js lines 162-211). -/
def parseAvailableDatesL (html : List Char) (fb : FallbackDate) : List (List Char) :=
  let ym := parseYearMonthL html fb
  sortDedupDates (((extractTdsL html).map (processCell ym.1 ym.2)).flatten)

/-- `parseAvailableDates` at string type. -/
def parseAvailableDates (html : String) (fb : FallbackDate) : List String :=
  (parseAvailableDatesL html.data fb).map (fun l => String.mk l)

/-! ### `splitForTelegram` (src/index.js lines 494-530) -/

/-- Fueled worker for the `while (rest.length > maxLen)` hard-split loop:
returns the pushed full-size slices and the final `rest`.  (The JS loop
diverges for `maxLen = 0`; all theorems assume `0 < maxLen`, and the
production call site uses 3900.) -/
def hardSplitF (fuel maxLen : Nat) (rest : List Char) :
    List (List Char) × List Char :=
  match fuel with
  | 0 => ([], rest)
  | fuel + 1 =>
    if maxLen < rest.length then
      let r := hardSplitF fuel maxLen (rest.drop maxLen)
      (rest.take maxLen :: r.1, r.2)
    else ([], rest)

/-- The hard-split loop with ample fuel. -/
def hardSplit (maxLen : Nat) (rest : List Char) : List (List Char) × List Char :=
  hardSplitF rest.length maxLen rest

/-- `text.split('\n')`. -/
def splitLinesL : List Char → List (List Char)
  | [] => [[]]
  | c :: t =>
    if c = '\n' then [] :: splitLinesL t
    else
      match splitLinesL t with
      | l :: ls => (c :: l) :: ls
      | [] => [[c]]

/-- The `for (const line of text.split('\n'))` loop of `splitForTelegram`,
with the accumulated `chunks` and the running `current` made explicit;
the final `if (current) chunks.push(current)` is the base case. -/
def splitLoop (maxLen : Nat) : List (List Char) → List (List Char) → List Char →
    List (List Char)
  | [], chunks, current => if current.isEmpty then chunks else chunks ++ [current]
  | line :: rest, chunks, current =>
    if (if current.isEmpty then line else current ++ '\n' :: line).length ≤ maxLen then
      splitLoop maxLen rest chunks (if current.isEmpty then line else current ++ '\n' :: line)
    else if line.length ≤ maxLen then
      splitLoop maxLen rest (if current.isEmpty then chunks else chunks ++ [current]) line
    else
      splitLoop maxLen rest
        ((if current.isEmpty then chunks else chunks ++ [current]) ++ (hardSplit maxLen line).1)
        (hardSplit maxLen line).2

/-- `splitForTelegram` on character lists. -/
def splitForTelegramL (text : List Char) (maxLen : Nat) : List (List Char) :=
  if text.length ≤ maxLen then [text]
  else splitLoop maxLen (splitLinesL text) [] []

/-- `splitForTelegram` at string type. -/
def splitForTelegram (text : String) (maxLen : Nat) : List String :=
  (splitForTelegramL text.data maxLen).map (fun l => String.mk l)

/-! ### `mergeCookieHeaders` (src/index.js lines 299-311) -/

/-- Split on `;` (like `splitLinesL`). -/
def splitOnSemi : List Char → List (List Char)
  | [] => [[]]
  | c :: t =>
    if c = ';' then [] :: splitOnSemi t
    else
      match splitOnSemi t with
      | l :: ls => (c :: l) :: ls
      | [] => [[c]]

/-- One loop iteration of `mergeCookieHeaders`: trim the segment, drop it
when empty, when it has no `=`, or when the `=` is at position 0;
otherwise return the trimmed key/value pair. -/
def cookiePairOfSeg (part : List Char) : Option (List Char × List Char) :=
  let t := jsTrim part
  if t.isEmpty then none
  else
    match t.findIdx? (fun c => c = '=') with
    | none => none
    | some 0 => none
    | some i => some (jsTrim (t.take i), jsTrim (t.drop (i + 1)))

/-- The well-formed `key=value` pairs of the concatenated cookie string,
in occurrence order. -/
def cookiePairs (existing newCookie : List Char) : List (List Char × List Char) :=
  (splitOnSemi (existing ++ ';' :: ' ' :: newCookie)).filterMap cookiePairOfSeg

/-- `Map.prototype.set`: update the value in place on an existing key,
append otherwise. -/
def jsMapSet (m : List (List Char × List Char)) (k v : List Char) :
    List (List Char × List Char) :=
  match m with
  | [] => [(k, v)]
  | (k0, v0) :: t => if k0 = k then (k, v) :: t else (k0, v0) :: jsMapSet t k v

/-- The `Map` built by `mergeCookieHeaders`. -/
def cookieMap (existing newCookie : List Char) : List (List Char × List Char) :=
  (cookiePairs existing newCookie).foldl (fun m kv => jsMapSet m kv.1 kv.2) []

/-- `mergeCookieHeaders` on character lists. -/
def mergeCookieHeadersL (existing newCookie : List Char) : List Char :=
  List.intercalate [';', ' ']
    ((cookieMap existing newCookie).map (fun kv => kv.1 ++ '=' :: kv.2))

/-- `mergeCookieHeaders` at string type. -/
def mergeCookieHeaders (existing newCookie : String) : String :=
  String.mk (mergeCookieHeadersL existing.data newCookie.data)

/-! ### Slots, the watcher state, and the two `checkOnce` variants -/

/-- A discovered slot (src/index.js lines 600-607). -/
structure Slot where
  planId : Nat
  planLabel : List Char
  date : List Char
  key : List Char
deriving DecidableEq, Repr

/-- The watcher state: `seen` is a JS object mapping slot keys to
timestamp strings, modelled as an association list in property order. -/
structure WatcherState where
  seen : List (List Char × List Char)
deriving DecidableEq, Repr

/-- Property lookup on the `seen` object. -/
def lookupSeen (seen : List (List Char × List Char)) (k : List Char) :
    Option (List Char) :=
  match seen with
  | [] => none
  | (k0, v0) :: t => if k0 = k then some v0 else lookupSeen t k

/-- JS truthiness of `state.seen[key]`: `undefined` and `''` are falsy,
a nonempty timestamp string is truthy. -/
def seenFalsy (state : WatcherState) (k : List Char) : Bool :=
  match lookupSeen state.seen k with
  | none => true
  | some v => v.isEmpty

/-- Property assignment `state.seen[key] = now` (updates in place,
appends a fresh key at the end). -/
def setSeen (state : WatcherState) (k now : List Char) : WatcherState :=
  ⟨jsMapSet state.seen k now⟩

/-- The seen-filter of the earlier variant's `checkOnce`
(src (earlier variant) lines 402-408): one pass over `found`; a slot whose
key is falsy in `seen` is marked seen and collected, all in the same
iteration.  `nowIso()` is modelled by the `now` argument. -/
def seenFilter (now : List Char) (state : WatcherState) :
    List Slot → List Slot × WatcherState
  | [] => ([], state)
  | slot :: rest =>
    if seenFalsy state slot.key then
      let r := seenFilter now (setSeen state slot.key now) rest
      (slot :: r.1, r.2)
    else seenFilter now state rest

/-- First-wins key dedup of `dedupeFoundSlots` (src/index.js lines 622-627). -/
def dedupeByKeyGo (seen : List (List Char)) : List Slot → List Slot
  | [] => []
  | s :: t =>
    if s.key ∈ seen then dedupeByKeyGo seen t
    else s :: dedupeByKeyGo (s.key :: seen) t

/-- The comparator of `dedupeFoundSlots` (src/index.js lines 628-631):
date first (`localeCompare`, modelled as code-unit order, which agrees on
the ASCII ISO dates), then plan id. -/
def foundSlotLe (a b : Slot) : Prop :=
  (if a.date = b.date then a.planId ≤ b.planId else strLe a.date b.date)

instance : DecidableRel foundSlotLe := fun a b => by
  unfold foundSlotLe; infer_instance

/-- `dedupeFoundSlots` (src/index.js lines 621-632). -/
def dedupeFoundSlots (slots : List Slot) : List Slot :=
  List.insertionSort foundSlotLe (dedupeByKeyGo [] slots)

/-- The notification decision of the later variant's `checkOnce`
(src/index.js lines 611-619): the alert is built from the deduplicated
`found` list alone; the watcher state is never consulted or updated. -/
def checkOnceNotified (state : WatcherState) (found : List Slot) : List Slot :=
  dedupeFoundSlots found

/-! ### `loadState` (src/index.js lines 62-77) -/

/-- A JSON document (the possible results of `JSON.parse`). -/
inductive Json where
  | null
  | bool (b : Bool)
  | num (n : Int)
  | str (s : String)
  | arr (elems : List Json)
  | obj (fields : List (String × Json))

/-- JS truthiness of a parsed JSON value. -/
def jsTruthy : Json → Bool
  | .null => false
  | .bool b => b
  | .num n => decide (n ≠ 0)
  | .str s => decide (s ≠ "")
  | .arr _ => true
  | .obj _ => true

/-- JS `typeof` of a parsed JSON value (`typeof null` is `"object"`, and
so is `typeof` of an array). -/
def jsTypeof : Json → String
  | .null => "object"
  | .bool _ => "boolean"
  | .num _ => "number"
  | .str _ => "string"
  | .arr _ => "object"
  | .obj _ => "object"

/-- Property access `data.seen` (`none` models `undefined`). -/
def getField : Json → String → Option Json
  | .obj fields, k =>
    match fields.find? (fun f => f.1 = k) with
    | some f => some f.2
    | none => none
  | _, _ => none

/-- `typeof data.seen`. -/
def typeofField (j : Json) (k : String) : String :=
  match getField j k with
  | none => "undefined"
  | some v => jsTypeof v

/-- What the state file yielded: absent, a read/parse exception, or a
parsed document. -/
inductive LoadOutcome where
  | missing
  | raised
  | content (doc : Json)

/-- The empty state `{seen: {}}`. -/
def emptyState : Json := .obj [("seen", .obj [])]

/-- `loadState` (src/index.js lines 62-77); the second component records
whether the `catch` branch logged a warning. -/
def loadState : LoadOutcome → Json × Bool
  | .missing => (emptyState, false)
  | .raised => (emptyState, true)
  | .content doc =>
    if jsTruthy doc && (jsTypeof doc == "object") &&
        (typeofField doc "seen" == "object") then
      (doc, false)
    else (emptyState, false)

/-! ### Soundness of the matcher

A successful match decomposes the input into one consumed segment per
pattern (plus the remainder), each segment of the shape its pattern
demands, and the captures are exactly the segments of the capturing
patterns.  This is the bridge from "the regex matched" to structural
facts about the input string.
-/

/-- The anchored shape test of `rsvDateToIso`, as a Bool. -/
def isoShapeB : List Char → Bool
  | [y1, y2, y3, y4, s1, m1, m2, s2, d1, d2] =>
    isJsDigit y1 && isJsDigit y2 && isJsDigit y3 && isJsDigit y4 &&
      s1 = '/' && isJsDigit m1 && isJsDigit m2 && s2 = '/' &&
      isJsDigit d1 && isJsDigit d2
  | _ => false

/-- What the segment consumed by one pattern looks like. -/
def SegFits : Pat → List Char → Prop
  | .lit s, seg => seg.map Char.toLower = s
  | .quote, seg => seg = ['"'] ∨ seg = [apos]
  | .gapNoGt, seg => ∀ c ∈ seg, c ≠ '>'
  | .gapNoQuote, seg => ∀ c ∈ seg, isQuoteChar c = false
  | .wsStar, seg => ∀ c ∈ seg, isJsSpace c = true
  | .lazyAny, _ => True
  | .capLazyAny, _ => True
  | .capNoQuote, seg => ∀ c ∈ seg, isQuoteChar c = false
  | .capDigits4, seg => seg.length = 4 ∧ ∀ c ∈ seg, isJsDigit c = true
  | .capDigits12, seg => (seg.length = 1 ∨ seg.length = 2) ∧ ∀ c ∈ seg, isJsDigit c = true
  | .capDigitsPlus, seg => seg ≠ [] ∧ ∀ c ∈ seg, isJsDigit c = true
  | .capDate, seg => isoShapeB seg = true
  | .nonWordNext, seg => seg = []
  | .opt _, _ => True
  | .backref _, _ => True

/-- Which patterns produce a capture. -/
def isCapPat : Pat → Bool
  | .capLazyAny | .capNoQuote | .capDigits4 | .capDigits12
  | .capDigitsPlus | .capDate => true
  | _ => false

/-- The captures contributed by patterns with their segments. -/
def capsOf : List Pat → List (List Char) → List (List Char)
  | p :: ps, seg :: segs => (if isCapPat p then [seg] else []) ++ capsOf ps segs
  | _, _ => []

mutual

/-- No capturing pattern hides inside an optional group. -/
def patOptsCapFree : Pat → Bool
  | .opt sub => subAllCapFree sub
  | _ => true

/-- Every pattern of the list is non-capturing and itself opt-cap-free. -/
def subAllCapFree : List Pat → Bool
  | [] => true
  | p :: ps => !isCapPat p && patOptsCapFree p && subAllCapFree ps

end

/-- Optional groups contain no capturing pattern (true of every source
regex: all `(?:...)?` groups are non-capturing). -/
def optsCapFree : List Pat → Bool
  | [] => true
  | p :: ps => patOptsCapFree p && optsCapFree ps

theorem orElse_eq_some {α : Type} (o : Option α) (f : Unit → Option α) (b : α) :
    o.orElse f = some b ↔ o = some b ∨ (o = none ∧ f () = some b) := by
  cases o <;> simp [Option.orElse]

theorem startsWithCI_decomp {s cs : List Char} (h : startsWithCI s cs = true) :
    ∃ seg rest, cs = seg ++ rest ∧ seg.map Char.toLower = s ∧
      cs.drop s.length = rest := by
  induction s generalizing cs with
  | nil => exact ⟨[], cs, rfl, rfl, rfl⟩
  | cons p ps ih =>
    cases cs with
    | nil => simp [startsWithCI] at h
    | cons c t =>
      simp [startsWithCI] at h
      obtain ⟨seg, rest, ht, hmap, hdrop⟩ := ih h.2
      exact ⟨c :: seg, rest, by simp [ht], by simp [hmap, h.1], by simpa using hdrop⟩

theorem getD_append_len {α : Type} (acc : List α) (x : α) (t : List α) (d : α) :
    (acc ++ x :: t).getD acc.length d = x := by
  induction acc with
  | nil => rfl
  | cons a acc ih => simpa using ih

theorem set_append_len {α : Type} (acc : List α) (x : α) (t : List α) (v : α) :
    (acc ++ x :: t).set acc.length v = acc ++ v :: t := by
  induction acc with
  | nil => rfl
  | cons a acc ih => simpa using ih

theorem drop_takeWhile_length (p : Char → Bool) (cs : List Char) :
    cs.drop (cs.takeWhile p).length = cs.dropWhile p := by
  induction cs with
  | nil => rfl
  | cons c t ih =>
    by_cases h : p c = true
    · simpa [List.takeWhile, List.dropWhile, h] using ih
    · simp [List.takeWhile, List.dropWhile, h]

theorem mem_takeWhile_prop (p : Char → Bool) (cs : List Char) :
    ∀ c ∈ cs.takeWhile p, p c = true := by
  induction cs with
  | nil => simp
  | cons a t ih =>
    by_cases h : p a = true
    · simpa [List.takeWhile, h] using ih
    · simp [List.takeWhile, h]

theorem subAllCapFree_mem {sub : List Pat} (h : subAllCapFree sub = true) :
    ∀ p ∈ sub, isCapPat p = false := by
  induction sub with
  | nil => simp
  | cons q qs ih =>
    simp [subAllCapFree] at h
    intro p hp
    rcases List.mem_cons.mp hp with rfl | hp
    · exact h.1.1
    · exact ih h.2 p hp

theorem subAllCapFree_opts {sub : List Pat} (h : subAllCapFree sub = true) :
    optsCapFree sub = true := by
  induction sub with
  | nil => rfl
  | cons q qs ih =>
    simp [subAllCapFree] at h
    simp only [optsCapFree, Bool.and_eq_true]
    exact ⟨h.1.2, ih h.2⟩

theorem optsCapFree_append {a b : List Pat} (ha : optsCapFree a = true)
    (hb : optsCapFree b = true) : optsCapFree (a ++ b) = true := by
  induction a with
  | nil => simpa using hb
  | cons q qs ih =>
    simp [optsCapFree] at ha
    simp [optsCapFree, ha.1, ih ha.2]

theorem capsOf_append_nocap : ∀ (sub ps : List Pat) (segs1 segs2 : List (List Char)),
    segs1.length = sub.length → (∀ p ∈ sub, isCapPat p = false) →
    capsOf (sub ++ ps) (segs1 ++ segs2) = capsOf ps segs2 := by
  intro sub
  induction sub with
  | nil =>
    intro ps segs1 segs2 hlen _
    have : segs1 = [] := List.length_eq_zero.mp hlen
    simp [this]
  | cons q qs ih =>
    intro ps segs1 segs2 hlen hnc
    cases segs1 with
    | nil => simp at hlen
    | cons s1 ss1 =>
      have hq : isCapPat q = false := hnc q (by simp)
      simp only [List.cons_append, capsOf, hq]
      simp only [List.length_cons, Nat.succ.injEq] at hlen
      simpa using ih ps ss1 segs2 hlen (fun p hp => hnc p (by simp [hp]))

theorem build_nocap (p : Pat) (seg : List Char) {ps : List Pat} {rest rem : List Char}
    {acc caps : List (List Char)} (hcap : isCapPat p = false)
    (hfit : SegFits p seg)
    (h : ∃ segs, List.Forall₂ SegFits ps segs ∧ segs.flatten ++ rem = rest ∧
      caps = acc ++ capsOf ps segs) :
    ∃ segs, List.Forall₂ SegFits (p :: ps) segs ∧
      segs.flatten ++ rem = seg ++ rest ∧ caps = acc ++ capsOf (p :: ps) segs := by
  obtain ⟨segs, hf, hfl, hc⟩ := h
  exact ⟨seg :: segs, List.Forall₂.cons hfit hf,
    by simp [← hfl], by simp [capsOf, hcap, hc]⟩

theorem build_cap (p : Pat) (seg : List Char) {ps : List Pat} {rest rem : List Char}
    {acc caps : List (List Char)} (hcap : isCapPat p = true)
    (hfit : SegFits p seg)
    (h : ∃ segs, List.Forall₂ SegFits ps segs ∧ segs.flatten ++ rem = rest ∧
      caps = (acc ++ [seg]) ++ capsOf ps segs) :
    ∃ segs, List.Forall₂ SegFits (p :: ps) segs ∧
      segs.flatten ++ rem = seg ++ rest ∧ caps = acc ++ capsOf (p :: ps) segs := by
  obtain ⟨segs, hf, hfl, hc⟩ := h
  exact ⟨seg :: segs, List.Forall₂.cons hfit hf,
    by simp [← hfl], by simp [capsOf, hcap, hc]⟩

theorem forall₂_append_split {α β : Type} {R : α → β → Prop} :
    ∀ {l1 l2 : List α} {s : List β}, List.Forall₂ R (l1 ++ l2) s →
    ∃ s1 s2, s = s1 ++ s2 ∧ List.Forall₂ R l1 s1 ∧ List.Forall₂ R l2 s2 := by
  intro l1
  induction l1 with
  | nil => intro l2 s h; exact ⟨[], s, rfl, List.Forall₂.nil, h⟩
  | cons a l1 ih =>
    intro l2 s h
    cases h with
    | cons ha h2 =>
      obtain ⟨s1, s2, rfl, hf1, hf2⟩ := ih h2
      exact ⟨_ :: s1, s2, rfl, List.Forall₂.cons ha hf1, hf2⟩

set_option maxHeartbeats 1000000 in
theorem matchPats_sound : ∀ (fuel : Nat) (ps : List Pat) (cs : List Char)
    (acc caps : List (List Char)) (rem : List Char),
    optsCapFree ps = true →
    matchPats fuel ps cs acc = some (caps, rem) →
    ∃ segs : List (List Char), List.Forall₂ SegFits ps segs ∧
      segs.flatten ++ rem = cs ∧ caps = acc ++ capsOf ps segs := by
  intro fuel
  induction fuel with
  | zero => intro ps cs acc caps rem _ hm; simp [matchPats] at hm
  | succ fuel ih =>
    intro ps cs acc caps rem hfree hm
    cases ps with
    | nil =>
      simp only [matchPats, Option.some.injEq, Prod.mk.injEq] at hm
      exact ⟨[], List.Forall₂.nil, by simp [hm.2], by simp [capsOf, hm.1.symm]⟩
    | cons p ps =>
      have hfree2 : patOptsCapFree p = true ∧ optsCapFree ps = true := by
        simpa [optsCapFree, Bool.and_eq_true] using hfree
      cases p with
      | lit s =>
        simp only [matchPats] at hm
        cases hs : startsWithCI s cs with
        | false => rw [hs] at hm; simp at hm
        | true =>
          rw [hs] at hm; simp at hm
          obtain ⟨seg, rest, hcs, hmap, hdrop⟩ := startsWithCI_decomp hs
          rw [hdrop] at hm
          have := build_nocap (.lit s) seg rfl hmap (ih ps rest acc caps rem hfree2.2 hm)
          rwa [← hcs] at this
      | quote =>
        simp only [matchPats] at hm
        cases cs with
        | nil => simp at hm
        | cons c t =>
          simp only [] at hm
          cases hq : isQuoteChar c with
          | false => rw [hq] at hm; simp at hm
          | true =>
            rw [hq] at hm; simp at hm
            have hfit : SegFits .quote [c] := by
              simp only [isQuoteChar, Bool.or_eq_true, decide_eq_true_eq] at hq
              rcases hq with h | h <;> simp [SegFits, h]
            simpa using build_nocap .quote [c] rfl hfit (ih ps t acc caps rem hfree2.2 hm)
      | gapNoGt =>
        simp only [matchPats] at hm
        rw [orElse_eq_some] at hm
        rcases hm with hm | ⟨-, hm⟩
        · cases cs with
          | nil => simp at hm
          | cons c t =>
            simp only [] at hm
            by_cases hc : c = '>'
            · rw [if_neg (by simp [hc])] at hm; simp at hm
            · rw [if_pos hc] at hm
              obtain ⟨segs, hf, hfl, hcp⟩ := ih (.gapNoGt :: ps) t acc caps rem hfree hm
              cases hf with
              | cons hfit0 hf2 =>
                rename_i seg0 segs2
                refine ⟨(c :: seg0) :: segs2, List.Forall₂.cons ?_ hf2, ?_, ?_⟩
                · intro x hx
                  rcases List.mem_cons.mp hx with rfl | hx
                  · exact hc
                  · exact hfit0 x hx
                · simpa [← hfl] using rfl
                · simpa [capsOf] using hcp
        · simpa using build_nocap .gapNoGt [] rfl (by simp [SegFits])
            (ih ps cs acc caps rem hfree2.2 hm)
      | gapNoQuote =>
        simp only [matchPats] at hm
        rw [orElse_eq_some] at hm
        rcases hm with hm | ⟨-, hm⟩
        · cases cs with
          | nil => simp at hm
          | cons c t =>
            simp only [] at hm
            cases hc : isQuoteChar c with
            | true => rw [hc] at hm; simp at hm
            | false =>
              rw [hc] at hm; simp at hm
              obtain ⟨segs, hf, hfl, hcp⟩ := ih (.gapNoQuote :: ps) t acc caps rem hfree hm
              cases hf with
              | cons hfit0 hf2 =>
                rename_i seg0 segs2
                refine ⟨(c :: seg0) :: segs2, List.Forall₂.cons ?_ hf2, ?_, ?_⟩
                · intro x hx
                  rcases List.mem_cons.mp hx with rfl | hx
                  · exact hc
                  · exact hfit0 x hx
                · simpa [← hfl] using rfl
                · simpa [capsOf] using hcp
        · simpa using build_nocap .gapNoQuote [] rfl (by simp [SegFits])
            (ih ps cs acc caps rem hfree2.2 hm)
      | wsStar =>
        simp only [matchPats] at hm
        rw [orElse_eq_some] at hm
        rcases hm with hm | ⟨-, hm⟩
        · cases cs with
          | nil => simp at hm
          | cons c t =>
            simp only [] at hm
            cases hc : isJsSpace c with
            | false => rw [hc] at hm; simp at hm
            | true =>
              rw [hc] at hm; simp at hm
              obtain ⟨segs, hf, hfl, hcp⟩ := ih (.wsStar :: ps) t acc caps rem hfree hm
              cases hf with
              | cons hfit0 hf2 =>
                rename_i seg0 segs2
                refine ⟨(c :: seg0) :: segs2, List.Forall₂.cons ?_ hf2, ?_, ?_⟩
                · intro x hx
                  rcases List.mem_cons.mp hx with rfl | hx
                  · exact hc
                  · exact hfit0 x hx
                · simpa [← hfl] using rfl
                · simpa [capsOf] using hcp
        · simpa using build_nocap .wsStar [] rfl (by simp [SegFits])
            (ih ps cs acc caps rem hfree2.2 hm)
      | lazyAny =>
        simp only [matchPats] at hm
        rw [orElse_eq_some] at hm
        rcases hm with hm | ⟨-, hm⟩
        · simpa using build_nocap .lazyAny [] rfl (by simp [SegFits])
            (ih ps cs acc caps rem hfree2.2 hm)
        · cases cs with
          | nil => simp at hm
          | cons c t =>
            simp only [] at hm
            obtain ⟨segs, hf, hfl, hcp⟩ := ih (.lazyAny :: ps) t acc caps rem hfree hm
            cases hf with
            | cons hfit0 hf2 =>
              rename_i seg0 segs2
              refine ⟨(c :: seg0) :: segs2, List.Forall₂.cons trivial hf2, ?_, ?_⟩
              · simpa [← hfl] using rfl
              · simpa [capsOf] using hcp
      | capLazyAny =>
        simp only [matchPats] at hm
        rw [orElse_eq_some] at hm
        rcases hm with hm | ⟨-, hm⟩
        · exact build_cap .capLazyAny [] rfl (by simp [SegFits])
            (ih ps cs (acc ++ [[]]) caps rem hfree2.2 hm)
            |>.imp (fun segs h => by simpa using h)
        · cases cs with
          | nil => simp at hm
          | cons c t =>
            simp only [] at hm
            rw [Option.map_eq_some'] at hm
            obtain ⟨⟨caps0, rem0⟩, hm0, hpair⟩ := hm
            obtain ⟨segs, hf, hfl, hcp⟩ := ih (.capLazyAny :: ps) t acc caps0 rem0 hfree hm0
            cases hf with
            | cons hfit0 hf2 =>
              rename_i seg0 segs2
              have hcp2 : caps0 = acc ++ seg0 :: capsOf ps segs2 := by
                simpa [capsOf] using hcp
              have hcaps : caps = acc ++ (c :: seg0) :: capsOf ps segs2 := by
                have h1 : consCapAt acc.length c caps0 =
                    acc ++ (c :: seg0) :: capsOf ps segs2 := by
                  rw [hcp2]
                  unfold consCapAt
                  rw [getD_append_len, set_append_len]
                have := congrArg Prod.fst hpair
                simp at this
                rw [← this, h1]
              have hrem : rem = rem0 := by
                have := congrArg Prod.snd hpair
                simpa using this.symm
              refine ⟨(c :: seg0) :: segs2, List.Forall₂.cons trivial hf2, ?_, ?_⟩
              · subst hrem; simpa [← hfl] using rfl
              · simpa [capsOf] using hcaps
      | capNoQuote =>
        simp only [matchPats] at hm
        rw [orElse_eq_some] at hm
        rcases hm with hm | ⟨-, hm⟩
        · cases cs with
          | nil => simp at hm
          | cons c t =>
            simp only [] at hm
            cases hc : isQuoteChar c with
            | true => rw [hc] at hm; simp at hm
            | false =>
              rw [hc] at hm; simp only [Bool.not_false, if_true] at hm
              rw [Option.map_eq_some'] at hm
              obtain ⟨⟨caps0, rem0⟩, hm0, hpair⟩ := hm
              obtain ⟨segs, hf, hfl, hcp⟩ := ih (.capNoQuote :: ps) t acc caps0 rem0 hfree hm0
              cases hf with
              | cons hfit0 hf2 =>
                rename_i seg0 segs2
                have hcp2 : caps0 = acc ++ seg0 :: capsOf ps segs2 := by
                  simpa [capsOf] using hcp
                have hcaps : caps = acc ++ (c :: seg0) :: capsOf ps segs2 := by
                  have h1 : consCapAt acc.length c caps0 =
                      acc ++ (c :: seg0) :: capsOf ps segs2 := by
                    rw [hcp2]
                    unfold consCapAt
                    rw [getD_append_len, set_append_len]
                  have := congrArg Prod.fst hpair
                  simp at this
                  rw [← this, h1]
                have hrem : rem = rem0 := by
                  have := congrArg Prod.snd hpair
                  simpa using this.symm
                refine ⟨(c :: seg0) :: segs2, List.Forall₂.cons ?_ hf2, ?_, ?_⟩
                · intro x hx
                  rcases List.mem_cons.mp hx with rfl | hx
                  · exact hc
                  · exact hfit0 x hx
                · subst hrem; simpa [← hfl] using rfl
                · simpa [capsOf] using hcaps
        · exact build_cap .capNoQuote [] rfl (by simp [SegFits])
            (ih ps cs (acc ++ [[]]) caps rem hfree2.2 hm)
            |>.imp (fun segs h => by simpa using h)
      | capDigits4 =>
        simp only [matchPats] at hm
        cases cs with
        | nil => simp at hm
        | cons a t1 =>
          cases t1 with
          | nil => simp at hm
          | cons b t2 =>
            cases t2 with
            | nil => simp at hm
            | cons c t3 =>
              cases t3 with
              | nil => simp at hm
              | cons d t =>
                simp only [] at hm
                cases hd : (isJsDigit a && isJsDigit b && isJsDigit c && isJsDigit d) with
                | false => rw [hd] at hm; simp at hm
                | true =>
                  rw [hd] at hm; simp at hm
                  simp only [Bool.and_eq_true] at hd
                  have hfit : SegFits .capDigits4 [a, b, c, d] := by
                    refine ⟨rfl, ?_⟩
                    intro x hx
                    simp at hx
                    rcases hx with rfl | rfl | rfl | rfl
                    · exact hd.1.1.1
                    · exact hd.1.1.2
                    · exact hd.1.2
                    · exact hd.2
                  simpa using build_cap .capDigits4 [a, b, c, d] rfl hfit (ih ps t (acc ++ [[a, b, c, d]]) caps rem hfree2.2 hm)
      | capDigits12 =>
        simp only [matchPats] at hm
        cases cs with
        | nil => simp at hm
        | cons a t =>
          simp only [] at hm
          cases ha : isJsDigit a with
          | false => rw [ha] at hm; simp at hm
          | true =>
            rw [ha] at hm; simp only [if_true] at hm
            rw [orElse_eq_some] at hm
            rcases hm with hm | ⟨-, hm⟩
            · cases t with
              | nil => simp at hm
              | cons b t2 =>
                simp only [] at hm
                cases hb : isJsDigit b with
                | false => rw [hb] at hm; simp at hm
                | true =>
                  rw [hb] at hm; simp at hm
                  have hfit : SegFits .capDigits12 [a, b] := by
                    refine ⟨Or.inr rfl, ?_⟩
                    intro x hx
                    simp at hx
                    rcases hx with rfl | rfl
                    · exact ha
                    · exact hb
                  simpa using build_cap .capDigits12 [a, b] rfl hfit (ih ps t2 (acc ++ [[a, b]]) caps rem hfree2.2 hm)
            · have hfit : SegFits .capDigits12 [a] := by
                refine ⟨Or.inl rfl, ?_⟩
                intro x hx
                simp at hx
                subst hx
                exact ha
              simpa using build_cap .capDigits12 [a] rfl hfit (ih ps t (acc ++ [[a]]) caps rem hfree2.2 hm)
      | capDigitsPlus =>
        simp only [matchPats] at hm
        cases hr : (cs.takeWhile isJsDigit).isEmpty with
        | true => rw [hr] at hm; simp at hm
        | false =>
          rw [hr] at hm; simp only [if_false, Bool.false_eq_true] at hm
          have hrun : cs.drop (cs.takeWhile isJsDigit).length = cs.dropWhile isJsDigit :=
            drop_takeWhile_length isJsDigit cs
          rw [hrun] at hm
          have hfit : SegFits .capDigitsPlus (cs.takeWhile isJsDigit) := by
            refine ⟨by simpa [List.isEmpty_iff] using hr, mem_takeWhile_prop isJsDigit cs⟩
          have := build_cap .capDigitsPlus (cs.takeWhile isJsDigit) rfl hfit
            (ih ps (cs.dropWhile isJsDigit) (acc ++ [cs.takeWhile isJsDigit]) caps rem hfree2.2 hm)
          simpa [List.takeWhile_append_dropWhile] using this
      | capDate =>
        simp only [matchPats] at hm
        cases cs with
        | nil => simp at hm
        | cons y1 r1 =>
        cases r1 with
        | nil => simp at hm
        | cons y2 r2 =>
        cases r2 with
        | nil => simp at hm
        | cons y3 r3 =>
        cases r3 with
        | nil => simp at hm
        | cons y4 r4 =>
        cases r4 with
        | nil => simp at hm
        | cons s1 r5 =>
        cases r5 with
        | nil => simp at hm
        | cons m1 r6 =>
        cases r6 with
        | nil => simp at hm
        | cons m2 r7 =>
        cases r7 with
        | nil => simp at hm
        | cons s2 r8 =>
        cases r8 with
        | nil => simp at hm
        | cons d1 r9 =>
        cases r9 with
        | nil => simp at hm
        | cons d2 t =>
          simp only [] at hm
          cases hd : (isJsDigit y1 && isJsDigit y2 && isJsDigit y3 && isJsDigit y4 &&
              decide (s1 = '/') && isJsDigit m1 && isJsDigit m2 && decide (s2 = '/') &&
              isJsDigit d1 && isJsDigit d2) with
          | false => rw [hd] at hm; simp at hm
          | true =>
            rw [hd] at hm; simp at hm
            have hfit : SegFits .capDate [y1, y2, y3, y4, s1, m1, m2, s2, d1, d2] := by
              simpa [SegFits, isoShapeB] using hd
            simpa using build_cap .capDate [y1, y2, y3, y4, s1, m1, m2, s2, d1, d2] rfl hfit
              (ih ps t (acc ++ [[y1, y2, y3, y4, s1, m1, m2, s2, d1, d2]]) caps rem hfree2.2 hm)
      | nonWordNext =>
        simp only [matchPats] at hm
        cases hw : (match cs with
            | c :: _ => !isJsWordChar c
            | [] => true) with
        | false => rw [hw] at hm; simp at hm
        | true =>
          rw [hw] at hm; simp at hm
          simpa using build_nocap .nonWordNext [] rfl (by simp [SegFits])
            (ih ps cs acc caps rem hfree2.2 hm)
      | opt sub =>
        simp only [matchPats] at hm
        rw [orElse_eq_some] at hm
        have hsub : subAllCapFree sub = true := by
          simpa [patOptsCapFree] using hfree2.1
        rcases hm with hm | ⟨-, hm⟩
        · have hfree3 : optsCapFree (sub ++ ps) = true :=
            optsCapFree_append (subAllCapFree_opts hsub) hfree2.2
          obtain ⟨segs, hf, hfl, hcp⟩ := ih (sub ++ ps) cs acc caps rem hfree3 hm
          obtain ⟨segs1, segs2, rfl, hf1, hf2⟩ := forall₂_append_split hf
          have hlen : segs1.length = sub.length := (List.Forall₂.length_eq hf1).symm
          refine ⟨segs1.flatten :: segs2, List.Forall₂.cons trivial hf2, ?_, ?_⟩
          · simpa [← hfl] using rfl
          · rw [capsOf_append_nocap sub ps segs1 segs2 hlen (subAllCapFree_mem hsub)] at hcp
            simpa [capsOf] using hcp
        · simpa using build_nocap (.opt sub) [] rfl (by simp [SegFits])
            (ih ps cs acc caps rem hfree2.2 hm)
      | backref i =>
        simp only [matchPats] at hm
        cases hs : startsWithCI ((acc.getD i []).map Char.toLower) cs with
        | false => rw [hs] at hm; simp at hm
        | true =>
          rw [hs] at hm; rw [if_pos rfl] at hm
          obtain ⟨seg, rest, hcs, hmap, hdrop⟩ := startsWithCI_decomp hs
          rw [hdrop] at hm
          have := build_nocap (.backref i) seg rfl trivial
            (ih ps rest acc caps rem hfree2.2 hm)
          rwa [← hcs] at this

theorem runMatch_sound {ps : List Pat} {cs rem : List Char} {caps : List (List Char)}
    (hfree : optsCapFree ps = true) (h : runMatch ps cs = some (caps, rem)) :
    ∃ segs, List.Forall₂ SegFits ps segs ∧ segs.flatten ++ rem = cs ∧
      caps = capsOf ps segs := by
  obtain ⟨segs, hf, hfl, hc⟩ := matchPats_sound _ ps cs [] caps rem hfree h
  exact ⟨segs, hf, hfl, by simpa using hc⟩

theorem scanFirst_sound {ps : List Pat} {caps : List (List Char)} :
    ∀ {cs : List Char}, optsCapFree ps = true → scanFirst ps cs = some caps →
    ∃ pre segs rem, cs = pre ++ segs.flatten ++ rem ∧
      List.Forall₂ SegFits ps segs ∧ caps = capsOf ps segs := by
  intro cs
  induction cs with
  | nil =>
    intro hfree h
    simp only [scanFirst, Option.map_eq_some'] at h
    obtain ⟨⟨caps0, rem0⟩, hr, rfl⟩ := h
    obtain ⟨segs, hf, hfl, hc⟩ := runMatch_sound hfree hr
    exact ⟨[], segs, rem0, by simp [hfl], hf, hc⟩
  | cons c t ih =>
    intro hfree h
    rw [scanFirst] at h
    cases hr : runMatch ps (c :: t) with
    | some r =>
      obtain ⟨caps0, rem0⟩ := r
      rw [hr] at h
      simp only [] at h
      rcases h with ⟨h⟩
      obtain ⟨segs, hf, hfl, hc⟩ := runMatch_sound hfree hr
      exact ⟨[], segs, rem0, by simp [← hfl], hf, hc⟩
    | none =>
      rw [hr] at h
      simp only [] at h
      obtain ⟨pre, segs, rem, hcs, hf, hc⟩ := ih hfree h
      exact ⟨c :: pre, segs, rem, by simp [hcs], hf, hc⟩

theorem scanAllF_sound : ∀ (fuel : Nat) (ps : List Pat) (cs : List Char)
    (caps : List (List Char)), optsCapFree ps = true →
    caps ∈ scanAllF fuel ps cs →
    ∃ segs, List.Forall₂ SegFits ps segs ∧ caps = capsOf ps segs := by
  intro fuel
  induction fuel with
  | zero => intro ps cs caps _ h; simp [scanAllF] at h
  | succ fuel ih =>
    intro ps cs caps hfree h
    cases cs with
    | nil => simp [scanAllF] at h
    | cons c t =>
      rw [scanAllF] at h
      cases hr : runMatch ps (c :: t) with
      | some r =>
        obtain ⟨caps0, rem0⟩ := r
        rw [hr] at h
        simp only [] at h
        by_cases hl : rem0.length ≤ t.length
        · rw [if_pos hl] at h
          rcases List.mem_cons.mp h with rfl | h
          · obtain ⟨segs, hf, _, hc⟩ := runMatch_sound hfree hr
            exact ⟨segs, hf, hc⟩
          · exact ih ps rem0 caps hfree h
        · rw [if_neg hl] at h
          rcases List.mem_cons.mp h with rfl | h
          · obtain ⟨segs, hf, _, hc⟩ := runMatch_sound hfree hr
            exact ⟨segs, hf, hc⟩
          · exact ih ps t caps hfree h
      | none =>
        rw [hr] at h
        exact ih ps t caps hfree h

/-- Every `data-date` capture has the anchored `YYYY/MM/DD` shape that
`rsvDateToIso` re-checks. -/
theorem dataDatesL_shape (cell d : List Char) (h : d ∈ dataDatesL cell) :
    isoShapeB d = true := by
  simp only [dataDatesL, List.mem_map] at h
  obtain ⟨caps, hcaps, rfl⟩ := h
  obtain ⟨segs, hf, hc⟩ := scanAllF_sound _ dataDatePats cell caps (by rfl) hcaps
  cases hf with
  | cons h1 hf =>
    cases hf with
    | cons h2 hf =>
      cases hf with
      | cons h3 hf =>
        cases hf with
        | cons h4 hf =>
          cases hf with
          | nil =>
            simp only [capsOf, isCapPat] at hc
            simp [hc]
            exact h3

/-- A capture of the `YYYY/MM/DD` shape converts to a nonempty ISO date. -/
theorem rsvDateToIso_of_shape {d : List Char} (h : isoShapeB d = true) :
    ¬ (rsvDateToIsoL d).isEmpty = true := by
  match d with
  | [y1, y2, y3, y4, s1, m1, m2, s2, d1, d2] =>
    simp only [isoShapeB] at h
    simp [rsvDateToIsoL, h]
  | [] => simp [isoShapeB] at h
  | [a] => simp [isoShapeB] at h
  | [a, b] => simp [isoShapeB] at h
  | [a, b, c] => simp [isoShapeB] at h
  | [a, b, c, e] => simp [isoShapeB] at h
  | [a, b, c, e, f] => simp [isoShapeB] at h
  | [a, b, c, e, f, g] => simp [isoShapeB] at h
  | [a, b, c, e, f, g, i] => simp [isoShapeB] at h
  | [a, b, c, e, f, g, i, j] => simp [isoShapeB] at h
  | [a, b, c, e, f, g, i, j, k] => simp [isoShapeB] at h
  | a :: b :: c :: e :: f :: g :: i :: j :: k :: l :: m :: t => simp [isoShapeB] at h

theorem filterMap_iso_eq_map : ∀ (l : List (List Char)),
    (∀ d ∈ l, isoShapeB d = true) →
    (l.filterMap (fun d =>
      let iso := rsvDateToIsoL d
      if iso.isEmpty then none else some iso)) = l.map rsvDateToIsoL := by
  intro l
  induction l with
  | nil => intro _; rfl
  | cons d t ih =>
    intro h
    have hd := rsvDateToIso_of_shape (h d (by simp))
    simp only [List.filterMap_cons, List.map_cons]
    rw [if_neg hd]
    simp only [List.cons.injEq, true_and]
    exact ih (fun x hx => h x (by simp [hx]))

/-! ### Claim theorems -/

/-- C3 (amended): `parseAvailableDates` classifies each `<td>` cell by the
ordered rules, with rule (a) applying only when the cell has the
available-icon marker AND at least one `data-date` attribute (in which
case it contributes exactly those dates, ISO-formatted); a cell with the
marker but no `data-date` attribute falls through to the disabled-icon
rule (b) and the text-based rule (c).  In particular a marked cell with
exactly two `data-date` attributes contributes exactly those two dates. -/
theorem processCell_rules (year month : Nat) (cell : List Char) :
    (hasCircleIcon cell = true → dataDatesL cell ≠ [] →
      processCell year month cell = (dataDatesL cell).map rsvDateToIsoL) ∧
    ((hasCircleIcon cell = false ∨ dataDatesL cell = []) →
      hasDisabledIcon cell = true → processCell year month cell = []) ∧
    ((hasCircleIcon cell = false ∨ dataDatesL cell = []) →
      hasDisabledIcon cell = false → hasAvailableText cell = false →
      processCell year month cell = []) ∧
    ((hasCircleIcon cell = false ∨ dataDatesL cell = []) →
      hasDisabledIcon cell = false → hasAvailableText cell = true →
      processCell year month cell =
        (match dayCaptureL cell with
         | none => []
         | some cap =>
           match digitsToNat? cap with
           | none => []
           | some day =>
             if day < 1 || 31 < day then [] else [toIsoDateL year month day])) ∧
    (∀ d1 d2, hasCircleIcon cell = true → dataDatesL cell = [d1, d2] →
      processCell year month cell = [rsvDateToIsoL d1, rsvDateToIsoL d2]) := by
  have hfall : (hasCircleIcon cell = false ∨ dataDatesL cell = []) →
      (hasCircleIcon cell && !(dataDatesL cell).isEmpty) = false := by
    rintro (h | h) <;> simp [h]
  refine ⟨?_, ?_, ?_, ?_, ?_⟩
  · intro hc hd
    unfold processCell
    rw [if_pos (by simp [hc, List.isEmpty_iff, hd])]
    exact filterMap_iso_eq_map _ (fun d hmem => dataDatesL_shape cell d hmem)
  · intro hf hdis
    unfold processCell
    rw [if_neg (by simp [hfall hf]), if_pos hdis]
  · intro hf hdis hav
    unfold processCell
    rw [if_neg (by simp [hfall hf]), if_neg (by simp [hdis]), if_pos (by simp [hav])]
  · intro hf hdis hav
    unfold processCell
    rw [if_neg (by simp [hfall hf]), if_neg (by simp [hdis]), if_neg (by simp [hav])]
  · intro d1 d2 hc hd
    unfold processCell
    rw [if_pos (by simp [hc, hd])]
    rw [hd]
    have h1 := dataDatesL_shape cell d1 (by simp [hd])
    have h2 := dataDatesL_shape cell d2 (by simp [hd])
    have h1' : rsvDateToIsoL d1 ≠ [] := by
      simpa [List.isEmpty_iff] using rsvDateToIso_of_shape h1
    have h2' : rsvDateToIsoL d2 ≠ [] := by
      simpa [List.isEmpty_iff] using rsvDateToIso_of_shape h2
    simp [h1', h2']

/-- C3 witness for the amended theorem: a cell with the available icon and
two `data-date` attributes contributes exactly those two dates. -/
theorem processCell_rules_witness :
    processCell 2025 3
      "icon_circle.svg<a data-date=\"2025/03/12\"></a><b data-date=\"2025/03/14\"></b>".data =
      [rsvDateToIsoL "2025/03/12".data, rsvDateToIsoL "2025/03/14".data] :=
  (processCell_rules 2025 3 _).2.2.2.2 "2025/03/12".data "2025/03/14".data
    (by decide) (by decide)

/-- C3 counterexample: this cell carries the available-icon marker and has
no `data-date` attribute, so under the claim's rule (a) it contributes no
date; yet `parseAvailableDates` returns a date for it, produced by the
text-based fallback (c) — rule (a) does not fire on icon-marked cells
without `data-date` attributes. -/
theorem parseAvailableDates_icon_counterexample :
    hasCircleIcon "icon_circle.svg Available<div class=\"sc_cal_date\">5</div>".data = true ∧
    dataDatesL "icon_circle.svg Available<div class=\"sc_cal_date\">5</div>".data = [] ∧
    parseAvailableDates
      "<td>icon_circle.svg Available<div class=\"sc_cal_date\">5</div></td>"
      ⟨2025, 3⟩ = ["2025-03-05"] := by
  refine ⟨by decide, by decide, by decide⟩

/-- C5: on any input where the year/month banner regex does not match (or
where a captured component fails the numeric check), `parseYearMonth`
returns exactly the fallback date's year and month; the function is total,
so it never throws. -/
theorem parseYearMonth_fallback (html : String) (fb : FallbackDate)
    (h : scanFirst yearMonthPats html.data = none ∨
      ∃ caps, scanFirst yearMonthPats html.data = some caps ∧
        (digitsToNat? (caps.getD 0 []) = none ∨ digitsToNat? (caps.getD 1 []) = none)) :
    parseYearMonth html fb = (fb.year, fb.month) := by
  unfold parseYearMonth parseYearMonthL
  rcases h with h | ⟨caps, hc, hd⟩
  · rw [h]
  · rw [hc]
    simp only []
    rcases hd with hd | hd
    · rw [hd]
    · rw [hd]
      cases digitsToNat? (caps.getD 0 []) <;> rfl

/-- C5 witness: an input with no banner yields the fallback. -/
theorem parseYearMonth_fallback_witness :
    parseYearMonth "<html><body>hello</body></html>" ⟨2026, 2⟩ = (2026, 2) :=
  parseYearMonth_fallback _ _ (Or.inl (by decide))

/-- C1 (code bug in the later variant): `checkOnce` of `src/index.js`
notifies a slot whose key is already present (with a nonempty timestamp)
in the state's seen mapping — it never consults or updates the state —
whereas the seen-filter of the earlier variant correctly reports zero new
matches on the same input. -/
theorem checkOnce_later_ignores_seen :
    lookupSeen [("20|2025-03-12".data, "2026-01-01T00:00:00.000Z".data)]
        "20|2025-03-12".data = some "2026-01-01T00:00:00.000Z".data ∧
    checkOnceNotified ⟨[("20|2025-03-12".data, "2026-01-01T00:00:00.000Z".data)]⟩
        [⟨20, "Plan 20".data, "2025-03-12".data, "20|2025-03-12".data⟩] =
      [⟨20, "Plan 20".data, "2025-03-12".data, "20|2025-03-12".data⟩] ∧
    (seenFilter "2026-02-01T00:00:00.000Z".data
        ⟨[("20|2025-03-12".data, "2026-01-01T00:00:00.000Z".data)]⟩
        [⟨20, "Plan 20".data, "2025-03-12".data, "20|2025-03-12".data⟩]).1 = [] := by
  refine ⟨by decide, by decide, by decide⟩

theorem lookupSeen_jsMapSet_ne {m : List (List Char × List Char)}
    {k k' v : List Char} (h : k' ≠ k) :
    lookupSeen (jsMapSet m k v) k' = lookupSeen m k' := by
  induction m with
  | nil =>
    show lookupSeen [(k, v)] k' = lookupSeen [] k'
    simp only [lookupSeen]
    rw [if_neg (fun he => h he.symm)]
  | cons kv t ih =>
    obtain ⟨k0, v0⟩ := kv
    by_cases h0 : k0 = k
    · subst h0
      simp only [jsMapSet, if_pos rfl, lookupSeen]
      rw [if_neg (fun he => h he.symm), if_neg (fun he => h he.symm)]
    · simp only [jsMapSet, if_neg h0, lookupSeen]
      by_cases h1 : k0 = k'
      · rw [if_pos h1, if_pos h1]
      · rw [if_neg h1, if_neg h1]
        exact ih

/-- C2: the seen mapping is monotone — a key present with a (nonempty)
first-detection timestamp is never removed or overwritten by the
seen-filter, the only operation of the program that mutates the state. -/
theorem seenFilter_preserves (now : List Char) (found : List Slot) :
    ∀ (state : WatcherState) (k ts : List Char),
      lookupSeen state.seen k = some ts → ts ≠ [] →
      lookupSeen ((seenFilter now state found).2).seen k = some ts := by
  induction found with
  | nil => intro state k ts h _; simpa [seenFilter] using h
  | cons slot rest ih =>
    intro state k ts h hts
    rw [seenFilter]
    cases hb : seenFalsy state slot.key with
    | false =>
      simp only [hb, Bool.false_eq_true, if_false]
      exact ih state k ts h hts
    | true =>
      simp only [hb, if_true]
      refine ih (setSeen state slot.key now) k ts ?_ hts
      show lookupSeen (jsMapSet state.seen slot.key now) k = some ts
      by_cases hk : k = slot.key
      · subst hk
        rw [seenFalsy, h] at hb
        exact absurd (List.isEmpty_iff.mp hb) hts
      · rw [lookupSeen_jsMapSet_ne hk]
        exact h

/-- C2 witness: a previously seen key keeps its timestamp across a filter
run that inserts a different key. -/
theorem seenFilter_preserves_witness :
    lookupSeen ((seenFilter "2026-02-01T00:00:00.000Z".data
        ⟨[("20|2025-03-12".data, "2026-01-01T00:00:00.000Z".data)]⟩
        [⟨34, "WH".data, "2025-03-13".data, "34|2025-03-13".data⟩]).2).seen
      "20|2025-03-12".data = some "2026-01-01T00:00:00.000Z".data :=
  seenFilter_preserves _ _ _ _ _ (by decide) (by decide)

/-- C9 counterexample: the document `{"seen": null}` is not an object with
a seen *mapping* (its `seen` is `null`), yet `loadState` accepts and
returns it unchanged, because `typeof null` is `"object"` in JS — it does
not yield the empty state. -/
theorem loadState_seen_null_counterexample :
    getField (Json.obj [("seen", Json.null)]) "seen" = some Json.null ∧
    loadState (.content (Json.obj [("seen", Json.null)])) =
      (Json.obj [("seen", Json.null)], false) ∧
    Json.obj [("seen", Json.null)] ≠ emptyState := by
  refine ⟨rfl, rfl, ?_⟩
  intro h
  simp [emptyState] at h

/-- C9 (amended): a missing state file, a read/parse exception (with a
logged warning), and any document failing the source's shape test
(truthy, `typeof` object, `typeof data.seen` object) all yield the empty
state `{seen: {}}` without throwing; documents passing that shape test —
which includes `seen: null` and array-valued `seen`, since their JS
`typeof` is `"object"` — are returned as-is. -/
theorem loadState_spec :
    loadState .missing = (emptyState, false) ∧
    loadState .raised = (emptyState, true) ∧
    (∀ doc : Json,
      (jsTruthy doc && (jsTypeof doc == "object") &&
        (typeofField doc "seen" == "object")) = false →
      loadState (.content doc) = (emptyState, false)) ∧
    (∀ doc : Json,
      (jsTruthy doc && (jsTypeof doc == "object") &&
        (typeofField doc "seen" == "object")) = true →
      loadState (.content doc) = (doc, false)) := by
  refine ⟨rfl, rfl, ?_, ?_⟩ <;> intro doc h <;> simp [loadState, h]

/-- C9 witness: a non-object document and a wrong-shape object both load
as the empty state. -/
theorem loadState_spec_witness :
    loadState (.content (Json.num 5)) = (emptyState, false) ∧
    loadState (.content (Json.obj [("seen", Json.str "x")])) = (emptyState, false) :=
  ⟨loadState_spec.2.2.1 (Json.num 5) (by rfl),
   loadState_spec.2.2.1 (Json.obj [("seen", Json.str "x")]) (by rfl)⟩

theorem strLeB_total : ∀ a b : List Char, strLeB a b = true ∨ strLeB b a = true := by
  intro a
  induction a with
  | nil => intro b; left; rfl
  | cons x as ih =>
    intro b
    cases b with
    | nil => right; rfl
    | cons y bs =>
      by_cases hxy : x = y
      · subst hxy
        simpa [strLeB] using ih bs
      · rcases lt_trichotomy x y with h | h | h
        · left; simp [strLeB, hxy, h]
        · exact absurd h hxy
        · right
          simp only [strLeB]
          rw [if_neg (fun he => hxy he.symm)]
          simp [h]

theorem strLeB_trans : ∀ a b c : List Char,
    strLeB a b = true → strLeB b c = true → strLeB a c = true := by
  intro a
  induction a with
  | nil => intro b c _ _; rfl
  | cons x as ih =>
    intro b c hab hbc
    cases b with
    | nil => simp [strLeB] at hab
    | cons y bs =>
      cases c with
      | nil => simp [strLeB] at hbc
      | cons z cs =>
        by_cases hxy : x = y <;> by_cases hyz : y = z
        · subst hxy; subst hyz
          simp only [strLeB, if_pos rfl] at hab hbc ⊢
          exact ih bs cs hab hbc
        · subst hxy
          simp only [strLeB, if_pos rfl, if_neg hyz, decide_eq_true_eq] at hbc ⊢
          have hxz : x ≠ z := hyz
          simp [hxz, hbc]
        · subst hyz
          simp only [strLeB, if_neg hxy, decide_eq_true_eq] at hab ⊢
          simp [hxy, hab]
        · simp only [strLeB, if_neg hxy, if_neg hyz, decide_eq_true_eq] at hab hbc
          have hxz : x < z := lt_trans hab hbc
          have : x ≠ z := ne_of_lt hxz
          simp [strLeB, this, hxz]

instance : IsTotal (List Char) strLe :=
  ⟨fun a b => by
    rcases strLeB_total a b with h | h
    · exact Or.inl h
    · exact Or.inr h⟩

instance : IsTrans (List Char) strLe :=
  ⟨fun a b c hab hbc => strLeB_trans a b c hab hbc⟩

theorem jsDedupGo_nodup : ∀ (l : List (List Char)) (seen : List (List Char)),
    (jsDedupGo seen l).Nodup ∧ ∀ x ∈ jsDedupGo seen l, x ∉ seen := by
  intro l
  induction l with
  | nil => intro seen; exact ⟨List.nodup_nil, by simp [jsDedupGo]⟩
  | cons x t ih =>
    intro seen
    by_cases hx : x ∈ seen
    · simp only [jsDedupGo, if_pos hx]
      exact ih seen
    · have ihx := ih (x :: seen)
      refine ⟨?_, ?_⟩
      · simp only [jsDedupGo, if_neg hx]
        refine List.Nodup.cons ?_ ihx.1
        intro hmem
        exact absurd (by simp : x ∈ x :: seen) (ihx.2 x hmem)
      · intro y hy
        simp only [jsDedupGo, if_neg hx] at hy
        rcases List.mem_cons.mp hy with rfl | hy
        · exact hx
        · intro hys
          exact ihx.2 y hy (by simp [hys])

/-- C4: for every HTML string and fallback date the result of
`parseAvailableDates` is lexicographically sorted and duplicate-free, and
a day capture whose numeric value is outside 1–31 suppresses its cell
(contributes nothing) instead of producing a date. -/
theorem parseAvailableDates_sorted (html : String) (fb : FallbackDate) :
    List.Sorted strLe (parseAvailableDatesL html.data fb) ∧
    (parseAvailableDates html fb).Nodup ∧
    (∀ year month cell cap day,
      (hasCircleIcon cell && !(dataDatesL cell).isEmpty) = false →
      hasDisabledIcon cell = false →
      hasAvailableText cell = true →
      dayCaptureL cell = some cap →
      digitsToNat? cap = some day →
      (day < 1 ∨ 31 < day) →
      processCell year month cell = []) := by
  refine ⟨?_, ?_, ?_⟩
  · exact List.sorted_insertionSort strLe _
  · have hnd : (parseAvailableDatesL html.data fb).Nodup := by
      unfold parseAvailableDatesL sortDedupDates
      have hperm := List.perm_insertionSort strLe
        (jsDedup (((extractTdsL html.data).map
          (processCell (parseYearMonthL html.data fb).1
            (parseYearMonthL html.data fb).2)).flatten))
      exact hperm.symm.nodup (jsDedupGo_nodup _ []).1
    have hinj : Function.Injective (fun l : List Char => String.mk l) :=
      fun a b h => congrArg String.data h
    exact hnd.map hinj
  · intro year month cell cap day h1 h2 h3 hcap hday hout
    unfold processCell
    rw [if_neg (by simp [h1]), if_neg (by simp [h2]), if_neg (by simp [h3]), hcap]
    simp only []
    rw [hday]
    simp only []
    rw [if_pos (by rcases hout with h | h <;> simp [h])]

/-- C4 witness: a day capture of 99 suppresses the cell. -/
theorem parseAvailableDates_sorted_witness :
    processCell 2025 3 "Available<div class=\"sc_cal_date\">99</div>".data = [] :=
  (parseAvailableDates_sorted "x" ⟨2025, 3⟩).2.2 2025 3 _ "99".data 99
    (by decide) (by decide) (by decide) (by decide) (by decide) (Or.inr (by decide))

theorem dedupePlansGo_nodup : ∀ (l : List Plan) (seen : List (List Char)),
    ((dedupePlansGo seen l).map planKey).Nodup ∧
      ∀ p ∈ dedupePlansGo seen l, planKey p ∉ seen := by
  intro l
  induction l with
  | nil => intro seen; exact ⟨List.nodup_nil, by simp [dedupePlansGo]⟩
  | cons p t ih =>
    intro seen
    by_cases hp : planKey p ∈ seen
    · simp only [dedupePlansGo, if_pos hp]
      exact ih seen
    · have ihp := ih (planKey p :: seen)
      refine ⟨?_, ?_⟩
      · simp only [dedupePlansGo, if_neg hp, List.map_cons]
        refine List.Nodup.cons ?_ ihp.1
        intro hmem
        obtain ⟨q, hq, hk⟩ := List.mem_map.mp hmem
        exact absurd (by simp [hk] : planKey q ∈ planKey p :: seen) (ihp.2 q hq)
      · intro q hq
        simp only [dedupePlansGo, if_neg hp] at hq
        rcases List.mem_cons.mp hq with rfl | hq
        · exact hp
        · intro hqs
          exact ihp.2 q hq (by simp [hqs])

theorem dedupePlansGo_sublist : ∀ (l : List Plan) (seen : List (List Char)),
    (dedupePlansGo seen l).Sublist l := by
  intro l
  induction l with
  | nil => intro seen; exact List.Sublist.refl []
  | cons p t ih =>
    intro seen
    by_cases hp : planKey p ∈ seen
    · simpa [dedupePlansGo, hp] using (ih seen).cons p
    · simpa [dedupePlansGo, hp] using (ih (planKey p :: seen)).cons₂ p

theorem dedupePlansGo_covers : ∀ (l : List Plan) (seen : List (List Char)) (p : Plan),
    p ∈ l → planKey p ∈ seen ∨ planKey p ∈ (dedupePlansGo seen l).map planKey := by
  intro l
  induction l with
  | nil => intro seen p h; simp at h
  | cons q t ih =>
    intro seen p hp
    by_cases hq : planKey q ∈ seen
    · rcases List.mem_cons.mp hp with rfl | hp
      · left; exact hq
      · simpa [dedupePlansGo, hq] using ih seen p hp
    · rcases List.mem_cons.mp hp with rfl | hp
      · right; simp [dedupePlansGo, hq]
      · rcases ih (planKey q :: seen) p hp with h | h
        · rcases List.mem_cons.mp h with he | he
          · right; simp [dedupePlansGo, hq, he]
          · left; exact he
        · right; simp [dedupePlansGo, hq]; right
          simpa using h

set_option maxRecDepth 40000 in
/-- C6: `parsePlans` dedups parsed plans by the `id|label` key while
preserving first-seen order (the result is a sublist of the raw parse with
pairwise-distinct keys covering every raw key); two identical `(id,
label)` constructs yield one entry, while the same id with different label
text yields two. -/
theorem parsePlans_dedup :
    (∀ html : String, parsePlans html = dedupePlans (rawPlans html.data)) ∧
    (∀ plans : List Plan,
      ((dedupePlans plans).map planKey).Nodup ∧
      (dedupePlans plans).Sublist plans ∧
      ∀ p ∈ plans, planKey p ∈ (dedupePlans plans).map planKey) ∧
    parsePlans ("<input name=\"plan\" id=\"plan-20\"><label for=\"plan-20\">Visa A" ++
      "</label><input name=\"plan\" id=\"plan-20\"><label for=\"plan-20\">Visa A</label>") =
      [⟨20, "Visa A".data⟩] ∧
    parsePlans ("<input name=\"plan\" id=\"plan-20\"><label for=\"plan-20\">Visa A" ++
      "</label><input name=\"plan\" id=\"plan-20\"><label for=\"plan-20\">Visa B</label>") =
      [⟨20, "Visa A".data⟩, ⟨20, "Visa B".data⟩] := by
  refine ⟨fun html => rfl, ?_, by decide, by decide⟩
  intro plans
  refine ⟨(dedupePlansGo_nodup plans []).1, dedupePlansGo_sublist plans [], ?_⟩
  intro p hp
  rcases dedupePlansGo_covers plans [] p hp with h | h
  · simp at h
  · exact h

/-- C6 witness: instances of the dedup characterization at a concrete
plan list. -/
theorem parsePlans_dedup_witness :
    ((dedupePlans [⟨20, "A".data⟩, ⟨20, "A".data⟩, ⟨20, "B".data⟩]).map planKey).Nodup ∧
    planKey ⟨20, "B".data⟩ ∈
      ((dedupePlans [⟨20, "A".data⟩, ⟨20, "A".data⟩, ⟨20, "B".data⟩]).map planKey) :=
  ⟨(parsePlans_dedup.2.1 _).1,
   (parsePlans_dedup.2.1 _).2.2 ⟨20, "B".data⟩ (by decide)⟩

/-- The value of the last well-formed occurrence of key `k` in a pair
list (later occurrences overwrite earlier ones). -/
def lastValue (k : List Char) : List (List Char × List Char) → Option (List Char)
  | [] => none
  | (k0, v0) :: t =>
    match lastValue k t with
    | some v => some v
    | none => if k0 = k then some v0 else none

theorem lookupSeen_jsMapSet_self : ∀ (m : List (List Char × List Char)) (k v : List Char),
    lookupSeen (jsMapSet m k v) k = some v := by
  intro m
  induction m with
  | nil => intro k v; simp [jsMapSet, lookupSeen]
  | cons kv t ih =>
    intro k v
    obtain ⟨k0, v0⟩ := kv
    by_cases h0 : k0 = k
    · simp [jsMapSet, h0, lookupSeen]
    · simp only [jsMapSet, if_neg h0, lookupSeen]
      exact ih k v

theorem lookup_foldl_jsMapSet : ∀ (pairs : List (List Char × List Char))
    (m : List (List Char × List Char)) (k : List Char),
    lookupSeen (pairs.foldl (fun m kv => jsMapSet m kv.1 kv.2) m) k =
      match lastValue k pairs with
      | some v => some v
      | none => lookupSeen m k := by
  intro pairs
  induction pairs with
  | nil => intro m k; rfl
  | cons kv t ih =>
    intro m k
    obtain ⟨k0, v0⟩ := kv
    simp only [List.foldl_cons]
    rw [ih (jsMapSet m k0 v0) k]
    simp only [lastValue]
    cases lastValue k t with
    | some v => rfl
    | none =>
      simp only []
      by_cases h0 : k0 = k
      · subst h0
        rw [if_pos rfl]
        exact lookupSeen_jsMapSet_self m k0 v0
      · rw [if_neg h0]
        exact lookupSeen_jsMapSet_ne (fun he => h0 he.symm)

theorem splitOnSemi_ne_nil : ∀ cs : List Char, splitOnSemi cs ≠ [] := by
  intro cs
  cases cs with
  | nil => simp [splitOnSemi]
  | cons c t =>
    by_cases h : c = ';'
    · simp [splitOnSemi, h]
    · simp only [splitOnSemi, if_neg h]
      cases splitOnSemi t <;> simp

theorem splitOnSemi_append : ∀ x y : List Char,
    splitOnSemi (x ++ ';' :: y) = splitOnSemi x ++ splitOnSemi y := by
  intro x y
  induction x with
  | nil => simp [splitOnSemi]
  | cons c t ih =>
    by_cases h : c = ';'
    · subst h
      simp [splitOnSemi, ih]
    · simp only [List.cons_append, splitOnSemi, if_neg h]
      simp only [List.append_eq]
      rw [ih]
      cases hs : splitOnSemi t with
      | nil => exact absurd hs (splitOnSemi_ne_nil t)
      | cons l ls => simp

theorem splitOnSemi_no_semi : ∀ y : List Char, ';' ∉ y → splitOnSemi y = [y] := by
  intro y
  induction y with
  | nil => intro _; rfl
  | cons c t ih =>
    intro h
    have hc : c ≠ ';' := fun he => h (by simp [he])
    have ht : ';' ∉ t := fun hm => h (by simp [hm])
    simp only [splitOnSemi, if_neg hc, ih ht]

/-- C7: cookie merging parses `;`-delimited `key=value` segments with
case-sensitive keys, the final value of each key is the value of its last
occurrence (later occurrences, in particular the new cookie's, win), and
a malformed segment — empty, without `=`, or with an empty key — is
dropped silently (appending one changes nothing). -/
theorem mergeCookieHeaders_spec :
    (∀ existing newC k, lookupSeen (cookieMap existing newC) k =
      lastValue k (cookiePairs existing newC)) ∧
    (∀ existing newC bad, ';' ∉ bad → cookiePairOfSeg bad = none →
      mergeCookieHeadersL existing (newC ++ ';' :: bad) =
        mergeCookieHeadersL existing newC) ∧
    mergeCookieHeaders "sid=A; x=1" "SID=B; x=2" = "sid=A; x=2; SID=B" ∧
    mergeCookieHeaders "sid=a" "sid=b" = "sid=b" := by
  refine ⟨?_, ?_, by decide, by decide⟩
  · intro existing newC k
    unfold cookieMap
    rw [lookup_foldl_jsMapSet]
    cases lastValue k (cookiePairs existing newC) <;> rfl
  · intro existing newC bad hsemi hseg
    have hconcat : existing ++ ';' :: ' ' :: (newC ++ ';' :: bad) =
        (existing ++ ';' :: ' ' :: newC) ++ ';' :: bad := by simp
    have hpairs : cookiePairs existing (newC ++ ';' :: bad) =
        cookiePairs existing newC := by
      unfold cookiePairs
      rw [hconcat, splitOnSemi_append, splitOnSemi_no_semi bad hsemi]
      rw [List.filterMap_append]
      simp [hseg]
    unfold mergeCookieHeadersL cookieMap
    rw [hpairs]

/-- C7 witness: appending a malformed (no `=`) segment leaves the merge
unchanged. -/
theorem mergeCookieHeaders_spec_witness :
    mergeCookieHeadersL "a=1".data ("b=2".data ++ ';' :: "junk".data) =
      mergeCookieHeadersL "a=1".data "b=2".data :=
  mergeCookieHeaders_spec.2.1 "a=1".data "b=2".data "junk".data
    (by decide) (by decide)

/-! ### Chunk reconstruction for `splitForTelegram` -/

/-- Each line of `lines` preceded by the newline that separated it. -/
def nlJoin (lines : List (List Char)) : List Char :=
  (lines.map (fun l => '\n' :: l)).flatten

/-- `chunks` reconstruct `t`: concatenating the chunks, inserting between
adjacent chunks either the newline that was removed at a line-boundary
split or nothing at a hard split point, gives back `t` exactly. -/
inductive ReconOf : List (List Char) → List Char → Prop where
  | single (c : List Char) : ReconOf [c] c
  | cons (c sep : List Char) (cs : List (List Char)) (t : List Char) :
      sep = [] ∨ sep = ['\n'] → ReconOf cs t → ReconOf (c :: cs) (c ++ (sep ++ t))

theorem reconOf_single_inv {c t : List Char} (h : ReconOf [c] t) : t = c := by
  cases h with
  | single => rfl
  | cons c sep cs t hsep hr => cases hr

theorem recon_prepend_nl {cs : List (List Char)} {t : List Char} (c : List Char)
    (h : ReconOf cs t) : ReconOf (c :: cs) (c ++ '\n' :: t) := by
  have := ReconOf.cons c ['\n'] cs t (Or.inr rfl) h
  simpa using this

theorem recon_prepend_none {cs : List (List Char)} {t : List Char} (c : List Char)
    (h : ReconOf cs t) : ReconOf (c :: cs) (c ++ t) := by
  have := ReconOf.cons c [] cs t (Or.inl rfl) h
  simpa using this

theorem recon_prepend_pieces : ∀ (pieces : List (List Char))
    {cs : List (List Char)} {t : List Char}, ReconOf cs t →
    ReconOf (pieces ++ cs) (pieces.flatten ++ t) := by
  intro pieces
  induction pieces with
  | nil => intro cs t h; simpa using h
  | cons p ps ih =>
    intro cs t h
    have := recon_prepend_none p (ih h)
    simpa using this

theorem splitLinesL_join : ∀ cs : List Char,
    ∃ l ls, splitLinesL cs = l :: ls ∧ l ++ nlJoin ls = cs := by
  intro cs
  induction cs with
  | nil => exact ⟨[], [], rfl, rfl⟩
  | cons c t ih =>
    obtain ⟨l, ls, hsp, hj⟩ := ih
    by_cases hc : c = '\n'
    · subst hc
      refine ⟨[], l :: ls, by simp [splitLinesL, hsp], ?_⟩
      simp [nlJoin] at hj ⊢
      exact hj
    · refine ⟨c :: l, ls, ?_, by simp [hj]⟩
      simp only [splitLinesL, if_neg hc, hsp]

theorem splitLoop_acc (maxLen : Nat) : ∀ (lines : List (List Char))
    (chunks : List (List Char)) (current : List Char),
    splitLoop maxLen lines chunks current =
      chunks ++ splitLoop maxLen lines [] current := by
  intro lines
  induction lines with
  | nil =>
    intro chunks current
    by_cases h : current.isEmpty <;> simp [splitLoop, h]
  | cons line rest ih =>
    intro chunks current
    rw [splitLoop, splitLoop]
    by_cases h1 : (if current.isEmpty then line else current ++ '\n' :: line).length ≤ maxLen
    · rw [if_pos h1, if_pos h1, ih]
    · rw [if_neg h1, if_neg h1]
      by_cases h2 : line.length ≤ maxLen
      · rw [if_pos h2, if_pos h2]
        by_cases hce : current.isEmpty
        · rw [if_pos hce, if_pos hce, ih]
        · rw [if_neg hce, if_neg hce]
          rw [ih (chunks ++ [current]) line, ih ([] ++ [current]) line]
          simp
      · rw [if_neg h2, if_neg h2]
        rw [ih ((if current.isEmpty then chunks else chunks ++ [current]) ++
          (hardSplit maxLen line).1) (hardSplit maxLen line).2]
        rw [ih ((if current.isEmpty then [] else [] ++ [current]) ++
          (hardSplit maxLen line).1) (hardSplit maxLen line).2]
        by_cases hce : current.isEmpty <;> simp [hce]

theorem hardSplitF_join : ∀ (fuel maxLen : Nat) (l : List Char), 0 < maxLen →
    l.length ≤ fuel →
    (hardSplitF fuel maxLen l).1.flatten ++ (hardSplitF fuel maxLen l).2 = l := by
  intro fuel
  induction fuel with
  | zero =>
    intro maxLen l _ hl
    have : l = [] := List.length_eq_zero.mp (Nat.le_zero.mp hl)
    simp [this, hardSplitF]
  | succ fuel ih =>
    intro maxLen l h0 hl
    rw [hardSplitF]
    by_cases h : maxLen < l.length
    · rw [if_pos h]
      simp only [List.flatten_cons, List.append_assoc]
      rw [ih maxLen (l.drop maxLen) h0 (by simp; omega)]
      simp
    · rw [if_neg h]
      simp

theorem hardSplitF_piece_len : ∀ (fuel maxLen : Nat) (l : List Char),
    ∀ c ∈ (hardSplitF fuel maxLen l).1, c.length ≤ maxLen := by
  intro fuel
  induction fuel with
  | zero => intro maxLen l c hc; simp [hardSplitF] at hc
  | succ fuel ih =>
    intro maxLen l c hc
    rw [hardSplitF] at hc
    by_cases h : maxLen < l.length
    · rw [if_pos h] at hc
      simp only [List.mem_cons] at hc
      rcases hc with rfl | hc
      · simpa using Nat.le_refl maxLen
      · exact ih maxLen (l.drop maxLen) c hc
    · rw [if_neg h] at hc
      simp at hc

theorem hardSplitF_rest_len : ∀ (fuel maxLen : Nat) (l : List Char), 0 < maxLen →
    l.length ≤ fuel → (hardSplitF fuel maxLen l).2.length ≤ maxLen := by
  intro fuel
  induction fuel with
  | zero =>
    intro maxLen l h0 hl
    have : l = [] := List.length_eq_zero.mp (Nat.le_zero.mp hl)
    simp [this, hardSplitF]
  | succ fuel ih =>
    intro maxLen l h0 hl
    rw [hardSplitF]
    by_cases h : maxLen < l.length
    · rw [if_pos h]
      exact ih maxLen (l.drop maxLen) h0 (by simp; omega)
    · rw [if_neg h]
      simp only [hardSplitF]
      omega

theorem hardSplitF_rest_ne : ∀ (fuel maxLen : Nat) (l : List Char), 0 < maxLen →
    l ≠ [] → l.length ≤ fuel → (hardSplitF fuel maxLen l).2 ≠ [] := by
  intro fuel
  induction fuel with
  | zero =>
    intro maxLen l _ hne hl
    exact absurd (List.length_eq_zero.mp (Nat.le_zero.mp hl)) hne
  | succ fuel ih =>
    intro maxLen l h0 hne hl
    rw [hardSplitF]
    by_cases h : maxLen < l.length
    · rw [if_pos h]
      refine ih maxLen (l.drop maxLen) h0 ?_ (by simp; omega)
      have : (l.drop maxLen).length = l.length - maxLen := by simp
      intro he
      rw [he] at this
      simp at this
      omega
    · rw [if_neg h]
      exact hne

theorem splitLoop_sizes (maxLen : Nat) (h0 : 0 < maxLen) :
    ∀ (lines : List (List Char)) (chunks : List (List Char)) (current : List Char),
    (∀ c ∈ chunks, c.length ≤ maxLen) → current.length ≤ maxLen →
    ∀ c ∈ splitLoop maxLen lines chunks current, c.length ≤ maxLen := by
  intro lines
  induction lines with
  | nil =>
    intro chunks current hch hcur c hc
    rw [splitLoop] at hc
    by_cases he : current.isEmpty
    · rw [if_pos he] at hc
      exact hch c hc
    · rw [if_neg he] at hc
      rcases List.mem_append.mp hc with hc | hc
      · exact hch c hc
      · simp at hc
        subst hc
        exact hcur
  | cons line rest ih =>
    intro chunks current hch hcur c hc
    rw [splitLoop] at hc
    by_cases h1 : (if current.isEmpty then line else current ++ '\n' :: line).length ≤ maxLen
    · rw [if_pos h1] at hc
      exact ih chunks _ hch h1 c hc
    · rw [if_neg h1] at hc
      have hch1 : ∀ x ∈ (if current.isEmpty then chunks else chunks ++ [current]),
          x.length ≤ maxLen := by
        intro x hx
        by_cases he : current.isEmpty
        · rw [if_pos he] at hx
          exact hch x hx
        · rw [if_neg he] at hx
          rcases List.mem_append.mp hx with hx | hx
          · exact hch x hx
          · simp at hx
            subst hx
            exact hcur
      by_cases h2 : line.length ≤ maxLen
      · rw [if_pos h2] at hc
        exact ih _ line hch1 h2 c hc
      · rw [if_neg h2] at hc
        refine ih _ (hardSplit maxLen line).2 ?_ ?_ c hc
        · intro x hx
          rcases List.mem_append.mp hx with hx | hx
          · exact hch1 x hx
          · exact hardSplitF_piece_len _ maxLen line x hx
        · exact hardSplitF_rest_len _ maxLen line h0 (le_refl _)

theorem splitLoop_recon (maxLen : Nat) (h0 : 0 < maxLen) :
    ∀ (lines : List (List Char)) (current : List Char),
    (∀ l ∈ lines, l ≠ []) → current ≠ [] →
    ReconOf (splitLoop maxLen lines [] current) (current ++ nlJoin lines) := by
  intro lines
  induction lines with
  | nil =>
    intro current _ hc
    rw [splitLoop, if_neg (by simpa [List.isEmpty_iff] using hc)]
    simpa [nlJoin] using ReconOf.single current
  | cons line rest ih =>
    intro current hlines hc
    have hline : line ≠ [] := hlines line (by simp)
    have hrest : ∀ l ∈ rest, l ≠ [] := fun l hl => hlines l (by simp [hl])
    have hce : current.isEmpty = false := by simpa [List.isEmpty_iff] using hc
    rw [splitLoop]
    simp only [hce, Bool.false_eq_true, if_false]
    by_cases h1 : (current ++ '\n' :: line).length ≤ maxLen
    · rw [if_pos h1]
      have := ih (current ++ '\n' :: line) hrest (by simp)
      simpa [nlJoin, List.append_assoc] using this
    · rw [if_neg h1]
      by_cases h2 : line.length ≤ maxLen
      · rw [if_pos h2]
        rw [splitLoop_acc]
        have hr := recon_prepend_nl current (ih line hrest hline)
        simpa [nlJoin, List.append_assoc] using hr
      · rw [if_neg h2]
        rw [splitLoop_acc]
        have hjoin := hardSplitF_join line.length maxLen line h0 (le_refl _)
        have hne := hardSplitF_rest_ne line.length maxLen line h0 hline (le_refl _)
        have hr := ih (hardSplit maxLen line).2 hrest hne
        have hp := recon_prepend_pieces (hardSplit maxLen line).1 hr
        have hnl := recon_prepend_nl current hp
        have harr : (hardSplit maxLen line).1.flatten ++
            ((hardSplit maxLen line).2 ++ nlJoin rest) = line ++ nlJoin rest := by
          rw [← List.append_assoc]
          unfold hardSplit
          rw [hjoin]
        rw [harr] at hnl
        simpa [nlJoin, List.append_assoc] using hnl

theorem splitForTelegramL_recon (text : List Char) (maxLen : Nat)
    (h0 : 0 < maxLen) (hlines : ∀ l ∈ splitLinesL text, l ≠ [])
    (hlen : maxLen < text.length) :
    ReconOf (splitForTelegramL text maxLen) text := by
  rw [splitForTelegramL, if_neg (by omega)]
  obtain ⟨l, ls, hsp, hj⟩ := splitLinesL_join text
  have hl : l ≠ [] := hlines l (by simp [hsp])
  have hls : ∀ x ∈ ls, x ≠ [] := fun x hx => hlines x (by simp [hsp, hx])
  rw [hsp]
  rw [splitLoop]
  simp only [List.isEmpty_nil, if_true]
  by_cases h1 : l.length ≤ maxLen
  · rw [if_pos h1]
    have := splitLoop_recon maxLen h0 ls l hls hl
    rwa [hj] at this
  · rw [if_neg h1, if_neg h1]
    rw [splitLoop_acc]
    have hjoin := hardSplitF_join l.length maxLen l h0 (le_refl _)
    have hne := hardSplitF_rest_ne l.length maxLen l h0 hl (le_refl _)
    have hr := splitLoop_recon maxLen h0 ls (hardSplit maxLen l).2 hls hne
    have hp := recon_prepend_pieces (hardSplit maxLen l).1 hr
    have harr : (hardSplit maxLen l).1.flatten ++
        ((hardSplit maxLen l).2 ++ nlJoin ls) = text := by
      rw [← List.append_assoc]
      unfold hardSplit
      rw [hjoin, hj]
    rw [harr] at hp
    simpa using hp

/-- C8 (amended): for a positive chunk limit and a message none of whose
lines is empty, a text longer than the limit splits into at least two
chunks, every chunk fits the limit, and the chunks reconstruct the
original text with each boundary being either a removed line-boundary
newline or a hard split point.  (Without the no-empty-lines condition the
splitter silently drops empty segments — see the counterexample.) -/
theorem splitForTelegram_spec (text : String) (maxLen : Nat)
    (h0 : 0 < maxLen) (hlines : ∀ l ∈ splitLinesL text.data, l ≠ [])
    (hlen : maxLen < text.length) :
    2 ≤ (splitForTelegram text maxLen).length ∧
    (∀ c ∈ splitForTelegram text maxLen, c.length ≤ maxLen) ∧
    ReconOf ((splitForTelegram text maxLen).map String.data) text.data := by
  have hlen' : maxLen < text.data.length := hlen
  have hrec := splitForTelegramL_recon text.data maxLen h0 hlines hlen'
  have hsz : ∀ c ∈ splitForTelegramL text.data maxLen, c.length ≤ maxLen := by
    intro c hc
    rw [splitForTelegramL, if_neg (by omega)] at hc
    exact splitLoop_sizes maxLen h0 _ [] [] (by simp) (by simp) c hc
  have hmap : (splitForTelegram text maxLen).map String.data =
      splitForTelegramL text.data maxLen := by
    unfold splitForTelegram
    rw [List.map_map]
    have : String.data ∘ (fun l : List Char => String.mk l) = id := by
      funext l; rfl
    rw [this, List.map_id]
  refine ⟨?_, ?_, by rw [hmap]; exact hrec⟩
  · have hlenchunks : (splitForTelegram text maxLen).length =
        (splitForTelegramL text.data maxLen).length := by
      unfold splitForTelegram
      rw [List.length_map]
    rw [hlenchunks]
    cases hch : splitForTelegramL text.data maxLen with
    | nil => rw [hch] at hrec; cases hrec
    | cons c cs =>
      cases cs with
      | nil =>
        rw [hch] at hrec
        have hc := reconOf_single_inv hrec
        have h1 : c.length ≤ maxLen := hsz c (by rw [hch]; simp)
        rw [hc] at hlen'
        omega
      | cons c2 cs2 => simp
  · intro c hc
    unfold splitForTelegram at hc
    obtain ⟨l, hl, rfl⟩ := List.mem_map.mp hc
    have : (String.mk l).length = l.length := rfl
    rw [this]
    exact hsz l hl

/-- C8 counterexample: the message `"ab\n"` is longer than the limit 2,
but the splitter returns the single chunk `"ab"` — the trailing empty
segment is dropped (`''` is falsy), so neither the at-least-two-chunks
part nor reconstruction holds for the claim as stated. -/
theorem splitForTelegram_counterexample :
    2 < "ab\n".length ∧ splitForTelegram "ab\n" 2 = ["ab"] ∧
    ¬ 2 ≤ (splitForTelegram "ab\n" 2).length := by
  refine ⟨by decide, by decide, by decide⟩

/-- C8 witness: a two-line message over the limit splits into two chunks
within the limit that reconstruct the original. -/
theorem splitForTelegram_spec_witness :
    2 ≤ (splitForTelegram "aaaa\nbb" 4).length ∧
    (∀ c ∈ splitForTelegram "aaaa\nbb" 4, c.length ≤ 4) ∧
    ReconOf ((splitForTelegram "aaaa\nbb" 4).map String.data) "aaaa\nbb".data :=
  splitForTelegram_spec "aaaa\nbb" 4 (by decide) (by decide) (by decide)

/-- C10: the input-field extractors are attribute-order sensitive.  Part 1:
whenever `extractInputValue` returns a nonempty value, the html decomposes
into an `<input` tag in which a `name=` attribute with the requested name
textually precedes a `value=` attribute, with no `>` between them (so a
tag with `value` written before `name` can never produce a value).
Part 2: any returned value is the entity-decoded, trimmed capture.
Parts 3-7: concrete instances — value-before-name returns `""` for both
functions, name-before-value returns the decoded trimmed value, and the
checked fallback requires `value` before `checked`. -/
theorem extractInputValue_attr_order :
    (∀ html name : String, extractInputValue html name ≠ "" →
      ∃ pre tagO a nameEq q1 nm q2 b valEq q3 v q4 c gt rem,
        html.data = pre ++ tagO ++ a ++ nameEq ++ q1 ++ nm ++ q2 ++ b ++
          valEq ++ q3 ++ v ++ q4 ++ c ++ gt ++ rem ∧
        tagO.map Char.toLower = lc "<input" ∧
        (∀ x ∈ a, x ≠ '>') ∧
        nameEq.map Char.toLower = lc "name=" ∧
        (q1 = ['"'] ∨ q1 = [apos]) ∧
        nm.map Char.toLower = name.data.map Char.toLower ∧
        (q2 = ['"'] ∨ q2 = [apos]) ∧
        (∀ x ∈ b, x ≠ '>') ∧
        valEq.map Char.toLower = lc "value=" ∧
        (q3 = ['"'] ∨ q3 = [apos]) ∧
        (∀ x ∈ v, isQuoteChar x = false) ∧
        (q4 = ['"'] ∨ q4 = [apos]) ∧
        (∀ x ∈ c, x ≠ '>') ∧
        gt.map Char.toLower = lc ">") ∧
    (∀ html name : String, extractInputValue html name = "" ∨
      ∃ raw, extractInputValue html name = String.mk (decodeHtmlL raw)) ∧
    extractInputValue "<input value=\"v\" name=\"plan\">" "plan" = "" ∧
    parseSelectedValue "<input value=\"v\" name=\"plan\">" "plan" = "" ∧
    extractInputValue "<input name=\"plan\" value=\" a&amp;b \">" "plan" = "a&b" ∧
    parseSelectedValue
      ("<input name=\"plan\" value=\"\">" ++
        "<input name=\"plan\" checked=\"checked\" value=\"3\">") "plan" = "" ∧
    parseSelectedValue
      ("<input name=\"plan\" value=\"\">" ++
        "<input name=\"plan\" value=\"3\" checked=\"checked\">") "plan" = "3" := by
  refine ⟨?_, ?_, by decide, by decide, by decide, by decide, by decide⟩
  · intro html name hne
    unfold extractInputValue extractInputValueL at hne
    cases hscan : scanFirst (inputValuePats name.data) html.data with
    | none =>
      rw [hscan] at hne
      exact absurd rfl hne
    | some caps =>
      obtain ⟨pre, segs, rem, hcs, hf, -⟩ := scanFirst_sound (by rfl) hscan
      unfold inputValuePats at hf
      simp only [List.forall₂_cons_left_iff, List.forall₂_nil_left_iff] at hf
      obtain ⟨s1, u1, h1, ⟨s2, u2, h2, ⟨s3, u3, h3, ⟨s4, u4, h4, ⟨s5, u5, h5,
        ⟨s6, u6, h6, ⟨s7, u7, h7, ⟨s8, u8, h8, ⟨s9, u9, h9, ⟨s10, u10, h10,
        ⟨s11, u11, h11, ⟨s12, u12, h12, ⟨s13, u13, h13, hnil, rfl⟩, rfl⟩, rfl⟩,
        rfl⟩, rfl⟩, rfl⟩, rfl⟩, rfl⟩, rfl⟩, rfl⟩, rfl⟩, rfl⟩, rfl⟩ := hf
      subst hnil
      refine ⟨pre, s1, s2, s3, s4, s5, s6, s7, s8, s9, s10, s11, s12, s13, rem,
        ?_, h1, h2, h3, h4, h5, h6, h7, h8, h9, h10, h11, h12, h13⟩
      simpa [List.append_assoc] using hcs
  · intro html name
    unfold extractInputValue extractInputValueL
    cases hscan : scanFirst (inputValuePats name.data) html.data with
    | none => left; rfl
    | some caps => right; exact ⟨caps.getD 0 [], rfl⟩

/-- C10 witness: the decomposition at a concrete name-before-value tag. -/
theorem extractInputValue_attr_order_witness :
    ∃ pre tagO a nameEq q1 nm q2 b valEq q3 v q4 c gt rem,
      "<input name=\"a\" value=\"b\">".data = pre ++ tagO ++ a ++ nameEq ++ q1 ++
        nm ++ q2 ++ b ++ valEq ++ q3 ++ v ++ q4 ++ c ++ gt ++ rem ∧
      tagO.map Char.toLower = lc "<input" ∧
      (∀ x ∈ a, x ≠ '>') ∧
      nameEq.map Char.toLower = lc "name=" ∧
      (q1 = ['"'] ∨ q1 = [apos]) ∧
      nm.map Char.toLower = "a".data.map Char.toLower ∧
      (q2 = ['"'] ∨ q2 = [apos]) ∧
      (∀ x ∈ b, x ≠ '>') ∧
      valEq.map Char.toLower = lc "value=" ∧
      (q3 = ['"'] ∨ q3 = [apos]) ∧
      (∀ x ∈ v, isQuoteChar x = false) ∧
      (q4 = ['"'] ∨ q4 = [apos]) ∧
      (∀ x ∈ c, x ≠ '>') ∧
      gt.map Char.toLower = lc ">" :=
  extractInputValue_attr_order.1 "<input name=\"a\" value=\"b\">" "a" (by decide)
